import Mathlib

/-!
Verification of the manual-clustering core of the phy repository, a shallow
embedding of the files phy/cluster/manual/_utils.py and
phy/cluster/manual/session.py.

Conventions of the embedding:
- numpy arrays of ids (spike ids, cluster labels) are lists of naturals;
- float arrays are lists of rationals, i.e. exact arithmetic in place of
  IEEE floating point — the claims below concern orderings and algebraic
  identities that are insensitive to rounding;
- Python dicts are association lists whose key lists carry no duplicates;
- numpy and Python comparison sorts (np.sort, np.argsort, sorted) are
  embedded as insertion sort: every statement proved about a sort below
  depends only on its output being an ordered permutation of its input,
  which characterises every comparison sort.
-/

set_option maxHeartbeats 1000000
set_option maxRecDepth 8000
set_option linter.unusedVariables false

namespace PhySpec

/-! ### Generic helpers: argsort and list facts -/

/-- The comparison used by np.argsort over a natural-number key array:
position i comes before position j when key[i] is at most key[j]. -/
def keyLe (key : List Nat) (i j : Nat) : Prop :=
  key.getD i 0 ≤ key.getD j 0

instance (key : List Nat) : DecidableRel (keyLe key) :=
  fun _ _ => Nat.decLe _ _

instance (key : List Nat) : IsTotal Nat (keyLe key) :=
  ⟨fun _ _ => Nat.le_total _ _⟩

instance (key : List Nat) : IsTrans Nat (keyLe key) :=
  ⟨fun _ _ _ h h2 => Nat.le_trans h h2⟩

/-- np.argsort over a natural-number key: the positions 0 .. n-1 of the key
array, sorted by key value. -/
def argsort (key : List Nat) : List Nat :=
  List.insertionSort (keyLe key) (List.range key.length)

/-- Reading every position of a list in order reproduces the list. -/
theorem range_map_getD {γ : Type} (l : List γ) (d : γ) :
    (List.range l.length).map (fun i => l.getD i d) = l := by
  apply List.ext_getElem
  · simp
  · intro n h1 h2
    simp [List.getD_eq_getElem?_getD, List.getElem?_eq_getElem h2]

/-- Reading matching positions of two equally long lists in order
reproduces their zip. -/
theorem range_map_getD_pair {γ δ : Type} (k : List γ) (v : List δ) (dk : γ) (dv : δ)
    (h : v.length = k.length) :
    (List.range k.length).map (fun i => (k.getD i dk, v.getD i dv)) = k.zip v := by
  apply List.ext_getElem
  · simp [h]
  · intro n h1 h2
    have hn : n < k.length := by simpa using h1
    have hv : n < v.length := by omega
    simp [List.getElem_zip, List.getD_eq_getElem?_getD,
      List.getElem?_eq_getElem hn, List.getElem?_eq_getElem hv]

/-- Two lists of key-value pairs that are sorted strictly by key and are
permutations of each other are equal. -/
theorem eq_of_perm_of_pairwise_lt {γ : Type} :
    ∀ {l₁ l₂ : List (Nat × γ)}, l₁.Perm l₂ →
      l₁.Pairwise (fun p q => p.1 < q.1) → l₂.Pairwise (fun p q => p.1 < q.1) →
      l₁ = l₂
  | [], _, hp, _, _ => hp.nil_eq
  | a :: t₁, l₂, hp, h₁, h₂ => by
    cases l₂ with
    | nil => exact absurd (List.perm_nil.mp hp) (by simp)
    | cons b t₂ =>
      have hab : a = b := by
        have ha : a ∈ b :: t₂ := hp.subset (List.mem_cons_self a t₁)
        have hb : b ∈ a :: t₁ := hp.symm.subset (List.mem_cons_self b t₂)
        rcases List.mem_cons.mp ha with h | ha2
        · exact h
        · rcases List.mem_cons.mp hb with h | hb2
          · exact h.symm
          · have hlt1 := (List.pairwise_cons.mp h₁).1 b hb2
            have hlt2 := (List.pairwise_cons.mp h₂).1 a ha2
            omega
      subst hab
      have ht := hp.cons_inv
      have := eq_of_perm_of_pairwise_lt ht (List.pairwise_cons.mp h₁).2
        (List.pairwise_cons.mp h₂).2
      rw [this]

/-- Flattening commutes, up to permutation, with replacing each chunk by a
permutation of itself. -/
theorem flatten_map_perm {γ : Type} (f : List γ → List γ) :
    ∀ (L : List (List γ)), (∀ x ∈ L, (f x).Perm x) → (L.map f).flatten.Perm L.flatten
  | [], _ => List.Perm.refl _
  | x :: L, h => by
    simp only [List.map_cons, List.flatten_cons]
    exact (h x (List.mem_cons_self x L)).append
      (flatten_map_perm f L (fun y hy => h y (List.mem_cons_of_mem x hy)))

/-! ### UpdateInfo and _process_ups

The function update_info in _utils.py builds a Bunch (a Python dict with
attribute access) with a fixed key set; we embed it as a record with
exactly those fields. -/

/-- The record produced by update_info in _utils.py. Every call sets the
complete key set below (defaults first, then the keyword overrides), so
every UpdateInfo value carries all ten keys. -/
structure UpdateInfo where
  description : Option String
  history : Option String
  spikes : List Nat
  added : List Nat
  deleted : List Nat
  descendants : List (Nat × Nat)
  metadata_changed : List Nat
  metadata_value : Option Nat
  old_spikes_per_cluster : List (Nat × List Nat)
  new_spikes_per_cluster : List (Nat × List Nat)
deriving Repr, DecidableEq

/-- Python dict.update applied to two update_info records: every key of the
second record (and both records carry the full fixed key set) overwrites
the corresponding key of the first. -/
def UpdateInfo.update (a b : UpdateInfo) : UpdateInfo :=
  { a with
    description := b.description
    history := b.history
    spikes := b.spikes
    added := b.added
    deleted := b.deleted
    descendants := b.descendants
    metadata_changed := b.metadata_changed
    metadata_value := b.metadata_value
    old_spikes_per_cluster := b.old_spikes_per_cluster
    new_spikes_per_cluster := b.new_spikes_per_cluster }

/-- The function _process_ups of session.py. Except.error () embeds the
NotImplementedError raised for more than two records; the bare Python
return statement for an empty list is the value none. -/
def _process_ups : List UpdateInfo → Except Unit (Option UpdateInfo)
  | [] => Except.ok none
  | [u] => Except.ok (some u)
  | [u1, u2] => Except.ok (some (u1.update u2))
  | _ => Except.error ()

/-- C10: _process_ups returns None on the empty list, the single record
unchanged on a one-element list, and raises NotImplementedError whenever
more than two records are supplied. -/
theorem processUps_cases (u : UpdateInfo) (ups : List UpdateInfo)
    (h : 2 < ups.length) :
    _process_ups [] = Except.ok none ∧
    _process_ups [u] = Except.ok (some u) ∧
    _process_ups ups = Except.error () := by
  refine ⟨rfl, rfl, ?_⟩
  rcases ups with _ | ⟨a, ups⟩
  · simp at h
  rcases ups with _ | ⟨b, ups⟩
  · simp at h
  rcases ups with _ | ⟨c, ups⟩
  · simp at h
  rfl

/-- An update_info record with every field at its default. -/
def sampleUpdateInfo : UpdateInfo :=
  { description := none, history := none, spikes := [], added := [], deleted := []
    descendants := [], metadata_changed := [], metadata_value := none
    old_spikes_per_cluster := [], new_spikes_per_cluster := [] }

/-- Witness for processUps_cases at a concrete three-record list. -/
theorem processUps_cases_witness :
    2 < ([sampleUpdateInfo, sampleUpdateInfo, sampleUpdateInfo] : List UpdateInfo).length ∧
    (_process_ups [] = Except.ok none ∧
     _process_ups [sampleUpdateInfo] = Except.ok (some sampleUpdateInfo) ∧
     _process_ups [sampleUpdateInfo, sampleUpdateInfo, sampleUpdateInfo] = Except.error ()) :=
  ⟨by decide, processUps_cases sampleUpdateInfo _ (by decide)⟩

/-- A partition-style record, as produced by a merge: clusters 2 and 3
merged into the new cluster 10. -/
def upPartition : UpdateInfo :=
  { description := some "merge", history := none, spikes := [0, 1], added := [10]
    deleted := [2, 3], descendants := [(2, 10), (3, 10)], metadata_changed := []
    metadata_value := none, old_spikes_per_cluster := [], new_spikes_per_cluster := [] }

/-- A metadata-style record: the group of cluster 10 changed to value 1.
All partition fields keep their update_info defaults (empty lists). -/
def upMetadata : UpdateInfo :=
  { description := some "metadata_group", history := none, spikes := [], added := []
    deleted := [], descendants := [], metadata_changed := [10]
    metadata_value := some 1, old_spikes_per_cluster := [], new_spikes_per_cluster := [] }

/-- C7 counterexample: combining a partition record with a metadata record
does not preserve the first record's partition fields — dict.update lets
the second record's default empty lists overwrite them. At this concrete
input no combined record with the claimed fields is returned. -/
theorem processUps_combine_counterexample :
    ¬ ∃ c : UpdateInfo,
        _process_ups [upPartition, upMetadata] = Except.ok (some c) ∧
        c.added = upPartition.added ∧ c.deleted = upPartition.deleted ∧
        c.descendants = upPartition.descendants ∧ c.spikes = upPartition.spikes ∧
        c.metadata_changed = upMetadata.metadata_changed ∧
        c.metadata_value = upMetadata.metadata_value := by
  rintro ⟨c, hc, hadd, -⟩
  simp only [_process_ups, Except.ok.injEq, Option.some.injEq] at hc
  rw [← hc] at hadd
  simp [UpdateInfo.update, upPartition, upMetadata] at hadd

/-- C7 amended: with exactly two records recorded in the same action, the
combined record is the first record with every field overwritten by the
second record's value — that is, the second record outright. The second
record's metadata_changed and metadata_value are preserved, but the first
record's added, deleted, descendants and affected spikes are replaced by
the second record's (default-empty) values. -/
theorem processUps_combine_overwrites (u1 u2 : UpdateInfo) :
    _process_ups [u1, u2] = Except.ok (some (u1.update u2)) ∧
    u1.update u2 = u2 :=
  ⟨rfl, rfl⟩

/-! ### The disk store and FeatureMasks._prepare_file -/

/-- A stored numpy array in the cluster store: its shape, and its elements
listed as the rows along the first axis (each row holding the remaining
axes, flattened). -/
structure StoredArr where
  shape : List Nat
  rows : List (List Int)
deriving Repr, DecidableEq

/-- np.zeros(shape): the all-zero array of the given shape. -/
def zerosArr (shape : List Nat) : StoredArr :=
  { shape := shape
    rows := List.replicate (shape.headD 0) (List.replicate shape.tail.prod 0) }

/-- The disk store: an association list keyed by (cluster, field name). -/
abbrev DiskStore := List ((Nat × String) × StoredArr)

/-- disk_store.load(cluster, name): None when no entry exists. -/
def loadStore (ds : DiskStore) (cluster : Nat) (name : String) : Option StoredArr :=
  Option.map (fun e => e.2) (ds.find? (fun e => e.1 == (cluster, name)))

/-- disk_store.store(cluster, name=arr): (re)binds the entry for the key. -/
def storeStore (ds : DiskStore) (cluster : Nat) (name : String) (arr : StoredArr) :
    DiskStore :=
  ((cluster, name), arr) :: ds.filter (fun e => !(e.1 == (cluster, name)))

/-- The outcome of FeatureMasks._prepare_file: the Python return value,
the disk store after the call, and whether the corruption warning fired. -/
structure PrepareResult where
  needsWrite : Bool
  store : DiskStore
  warned : Bool
deriving Repr, DecidableEq

/-- FeatureMasks._prepare_file from session.py. Loads the entry; if it
exists with the expected shape and its first and last rows are not both
all-zero it returns False and leaves the store untouched; in every other
case (including the warning branch, which falls through) it stores a fresh
all-zero array and returns True. -/
def _prepare_file (ds : DiskStore) (name : String) (cluster : Nat)
    (shape : List Nat) : PrepareResult :=
  match loadStore ds cluster name with
  | some arr =>
    if arr.shape = shape then
      if ((arr.rows.headD []).all (fun x => x == 0)) &&
         ((arr.rows.getLastD []).all (fun x => x == 0)) then
        { needsWrite := true, store := storeStore ds cluster name (zerosArr shape)
          warned := true }
      else
        { needsWrite := false, store := ds, warned := false }
    else
      { needsWrite := true, store := storeStore ds cluster name (zerosArr shape)
        warned := false }
  | none =>
      { needsWrite := true, store := storeStore ds cluster name (zerosArr shape)
        warned := false }

/-- A store holding one entry of shape (3, 2) whose first and last rows are
all-zero but whose middle row is not: the cheap zero-probe fires although
the shape matches. -/
def corruptedStore : DiskStore :=
  [((7, "masks"), { shape := [3, 2], rows := [[0, 0], [5, 1], [0, 0]] })]

/-- C3 counterexample: on an entry with the expected shape whose zero-probe
fires, _prepare_file does not use the data as-is — it warns, overwrites the
entry with zeros and returns True, rather than returning False with the
stored bytes unchanged. -/
theorem prepare_file_counterexample :
    (_prepare_file corruptedStore "masks" 7 [3, 2]).needsWrite = true ∧
    (_prepare_file corruptedStore "masks" 7 [3, 2]).store ≠ corruptedStore ∧
    (_prepare_file corruptedStore "masks" 7 [3, 2]).warned = true := by
  decide

/-- C3 amended: when a persistent entry exists with the expected shape,
regeneration is skipped (False is returned, the stored bytes are untouched
and no warning fires) exactly when the cheap zero-probe does not fire;
when the probe does fire, the non-fatal warning is emitted but the entry
IS recreated: the call overwrites it with zeros and returns True. -/
theorem prepare_file_spec (ds : DiskStore) (name : String) (cluster : Nat)
    (shape : List Nat) (arr : StoredArr)
    (hload : loadStore ds cluster name = some arr)
    (hshape : arr.shape = shape) :
    (((arr.rows.headD []).all (fun x => x == 0) &&
      (arr.rows.getLastD []).all (fun x => x == 0)) = false →
      _prepare_file ds name cluster shape =
        { needsWrite := false, store := ds, warned := false }) ∧
    (((arr.rows.headD []).all (fun x => x == 0) &&
      (arr.rows.getLastD []).all (fun x => x == 0)) = true →
      _prepare_file ds name cluster shape =
        { needsWrite := true, store := storeStore ds cluster name (zerosArr shape)
          warned := true }) := by
  have hmain : _prepare_file ds name cluster shape =
      if ((arr.rows.headD []).all (fun x => x == 0) &&
          (arr.rows.getLastD []).all (fun x => x == 0)) = true
      then { needsWrite := true, store := storeStore ds cluster name (zerosArr shape)
             warned := true }
      else { needsWrite := false, store := ds, warned := false } := by
    unfold _prepare_file
    rw [hload]
    simp only [if_pos hshape]
  constructor <;> intro h <;> rw [hmain, h] <;> simp

/-- An intact entry: right shape, first row not all-zero. -/
def arrIntact : StoredArr := { shape := [2, 2], rows := [[1, 0], [2, 3]] }

/-- A store holding the intact entry. -/
def intactStore : DiskStore := [((7, "masks"), arrIntact)]

/-- Witness for prepare_file_spec: on the intact store the call returns
False and leaves the bytes unchanged. -/
theorem prepare_file_spec_witness :
    loadStore intactStore 7 "masks" = some arrIntact ∧
    arrIntact.shape = [2, 2] ∧
    ((arrIntact.rows.headD []).all (fun x => x == 0) &&
     (arrIntact.rows.getLastD []).all (fun x => x == 0)) = false ∧
    _prepare_file intactStore "masks" 7 [2, 2] =
      { needsWrite := false, store := intactStore, warned := false } :=
  ⟨by decide, by decide, by decide,
    (prepare_file_spec intactStore "masks" 7 [2, 2] arrIntact (by decide) (by decide)).1
      (by decide)⟩

/-! ### FeatureMasks._store_extra_fields

The masks array of one cluster is a list of per-spike rows, each row
holding the per-channel mask weights; the probe positions are one planar
point per channel. Floats are embedded as rationals. -/

/-- The comparison used by np.argsort over a rational key array. -/
def keyLeQ (key : List ℚ) (i j : Nat) : Prop :=
  key.getD i 0 ≤ key.getD j 0

instance (key : List ℚ) : DecidableRel (keyLeQ key) :=
  fun _ _ => inferInstanceAs (Decidable (_ ≤ _))

instance (key : List ℚ) : IsTotal Nat (keyLeQ key) :=
  ⟨fun _ _ => le_total _ _⟩

instance (key : List ℚ) : IsTrans Nat (keyLeQ key) :=
  ⟨fun _ _ _ h h2 => le_trans h h2⟩

/-- np.argsort over a rational key. -/
def argsortQ (key : List ℚ) : List Nat :=
  List.insertionSort (keyLeQ key) (List.range key.length)

/-- np.intersect1d: the sorted list of the distinct common values of the
two input arrays. -/
def intersect1d (a b : List Nat) : List Nat :=
  List.insertionSort (fun x y => x ≤ y) ((a.filter (fun x => decide (x ∈ b))).dedup)

/-- masks.sum(axis=0): the per-channel column sums of the masks array. -/
def sumMasks (nCh : Nat) (masks : List (List ℚ)) : List ℚ :=
  (List.range nCh).map (fun c => (masks.map (fun row => row.getD c 0)).sum)

/-- np.nonzero(mean_masks > 1e-3)[0]: the channels, in ascending index
order, whose mean mask exceeds the fixed threshold 1/1000. -/
def unmaskedChannels (mm : List ℚ) : List Nat :=
  (List.range mm.length).filter (fun c => decide ((1 : ℚ)/1000 < mm.getD c 0))

/-- (positions * mean_masks[:, np.newaxis]).mean(axis=0): the mean over the
channel axis of the mask-scaled positions — note the division by the
number of channels. -/
def meanProbePos (positions : List (ℚ × ℚ)) (mm : List ℚ) : ℚ × ℚ :=
  let wp := List.zipWith (fun (p : ℚ × ℚ) (m : ℚ) => (m * p.1, m * p.2)) positions mm
  ((wp.map Prod.fst).sum / (positions.length : ℚ),
   (wp.map Prod.snd).sum / (positions.length : ℚ))

/-- The extra (memory-tier) fields stored by _store_extra_fields. -/
structure ExtraFields where
  sum_masks : List ℚ
  mean_masks : List ℚ
  n_unmasked_channels : Nat
  main_channels : List Nat
  mean_probe_position : ℚ × ℚ
deriving Repr, DecidableEq

/-- FeatureMasks._store_extra_fields from session.py, for one cluster:
the values written to the memory store. -/
def _store_extra_fields (positions : List (ℚ × ℚ)) (nCh : Nat)
    (masks : List (List ℚ)) : ExtraFields :=
  let sm := sumMasks nCh masks
  let mm := sm.map (fun s => s / (masks.length : ℚ))
  let unmasked := unmaskedChannels mm
  { sum_masks := sm
    mean_masks := mm
    n_unmasked_channels := unmasked.length
    main_channels := intersect1d (argsortQ mm).reverse unmasked
    mean_probe_position := meanProbePos positions mm }

/-- C5: a failing input for the main-channels ordering. With mean masks
(1/5, 1/2) both channels are unmasked and the descending-mean-mask order
is [1, 0]; but np.intersect1d returns its result sorted ascending, so the
code stores [0, 1] — the unmasked channels in ascending index order, the
ranking destroyed. -/
theorem mainChannels_failing_input :
    (_store_extra_fields [(0, 0), (1, 0)] 2 [[1/5, 1/2]]).mean_masks = [1/5, 1/2] ∧
    (_store_extra_fields [(0, 0), (1, 0)] 2 [[1/5, 1/2]]).main_channels = [0, 1] ∧
    (1 : ℚ)/5 < 1/2 ∧ [0, 1] ≠ [1, 0] := by
  refine ⟨?_, ?_, by norm_num, by decide⟩ <;>
    norm_num [_store_extra_fields, sumMasks, unmaskedChannels, argsortQ, keyLeQ,
      intersect1d, List.range_succ, List.filter, List.dedup, List.insertionSort,
      List.orderedInsert, List.insert]

/-- A definition following the specification's words, for comparison with
the code: the weighted centroid of the channel positions with the given
per-channel weights — the weighted sum of the positions divided by the sum
of the weights. -/
def specWeightedCentroid (positions : List (ℚ × ℚ)) (w : List ℚ) : ℚ × ℚ :=
  let wp := List.zipWith (fun (p : ℚ × ℚ) (m : ℚ) => (m * p.1, m * p.2)) positions w
  ((wp.map Prod.fst).sum / w.sum, (wp.map Prod.snd).sum / w.sum)

/-- C6 counterexample: with channel positions (0,0) and (1,0) and mean
masks (1/2, 1/2), the weighted centroid of the spec is (1/2, 0), but the
code divides by the number of channels and stores (1/4, 0). -/
theorem meanProbePos_counterexample :
    (_store_extra_fields [(0, 0), (1, 0)] 2 [[1/2, 1/2]]).mean_probe_position =
      (1/4, 0) ∧
    specWeightedCentroid [(0, 0), (1, 0)]
      (_store_extra_fields [(0, 0), (1, 0)] 2 [[1/2, 1/2]]).mean_masks = (1/2, 0) ∧
    ((1 : ℚ)/4, (0 : ℚ)) ≠ ((1 : ℚ)/2, (0 : ℚ)) := by
  refine ⟨?_, ?_, by norm_num [Prod.ext_iff]⟩ <;>
    norm_num [_store_extra_fields, sumMasks, meanProbePos, specWeightedCentroid,
      List.range_succ]

/-- Evaluating a position of a map over a range. -/
theorem getD_map_range {γ : Type} (h : Nat → γ) (n c : Nat) (d : γ) (hc : c < n) :
    ((List.range n).map h).getD c d = h c := by
  have hlen : c < ((List.range n).map h).length := by simpa
  rw [List.getD_eq_getElem _ _ hlen]
  simp

/-- A zipWith over equally long lists, written as a map over positions. -/
theorem zipWith_eq_range_map {γ δ ε : Type} (f : γ → δ → ε) (as : List γ)
    (bs : List δ) (da : γ) (db : δ) (h : bs.length = as.length) :
    List.zipWith f as bs =
      (List.range as.length).map (fun i => f (as.getD i da) (bs.getD i db)) := by
  apply List.ext_getElem
  · simp [List.length_zipWith, h]
  · intro n h1 h2
    have hn : n < as.length := by simp [List.length_zipWith, h] at h1; omega
    have hb : n < bs.length := by omega
    simp [List.getElem_zipWith, List.getD_eq_getElem?_getD,
      List.getElem?_eq_getElem hn, List.getElem?_eq_getElem hb]

/-- The sum of a map over a range, as a finite sum over the channels. -/
theorem sum_map_range_eq (f : Nat → ℚ) :
    ∀ n, ((List.range n).map f).sum = ∑ c ∈ Finset.range n, f c := by
  intro n
  induction n with
  | zero => simp
  | succ m ih => rw [List.range_succ, Finset.sum_range_succ]; simp [ih]

/-- C6 amended: the stored mean_probe_position is the weighted sum of the
channel positions, with the per-channel mean mask (column sum divided by
spike count) as weights, divided by the NUMBER OF CHANNELS — not by the
sum of the weights as a weighted centroid would be. -/
theorem meanProbePos_spec (positions : List (ℚ × ℚ)) (nCh : Nat)
    (masks : List (List ℚ)) (hpos : positions.length = nCh) :
    (_store_extra_fields positions nCh masks).mean_probe_position =
      ((∑ c ∈ Finset.range nCh,
          (masks.map (fun row => row.getD c 0)).sum / (masks.length : ℚ) *
            (positions.getD c (0, 0)).1) / (nCh : ℚ),
       (∑ c ∈ Finset.range nCh,
          (masks.map (fun row => row.getD c 0)).sum / (masks.length : ℚ) *
            (positions.getD c (0, 0)).2) / (nCh : ℚ)) := by
  have hmm : (sumMasks nCh masks).map (fun s => s / (masks.length : ℚ)) =
      (List.range nCh).map
        (fun c => (masks.map (fun row => row.getD c 0)).sum / (masks.length : ℚ)) := by
    simp [sumMasks, List.map_map, Function.comp]
  have hlen : ((List.range nCh).map
      (fun c => (masks.map (fun row => row.getD c 0)).sum / (masks.length : ℚ))).length
      = positions.length := by simp [hpos]
  simp only [_store_extra_fields, meanProbePos, hmm]
  rw [List.map_zipWith, List.map_zipWith,
    zipWith_eq_range_map _ positions _ (0, 0) 0 hlen,
    zipWith_eq_range_map _ positions _ (0, 0) 0 hlen,
    hpos, sum_map_range_eq, sum_map_range_eq]
  simp only [Prod.mk.injEq]
  constructor <;>
  · congr 1
    refine Finset.sum_congr rfl (fun c hc => ?_)
    rw [Finset.mem_range] at hc
    rw [getD_map_range _ _ _ _ hc]

/-- Witness for meanProbePos_spec at a concrete input. -/
theorem meanProbePos_spec_witness :
    ([((0 : ℚ), (0 : ℚ)), (1, 0)] : List (ℚ × ℚ)).length = 2 ∧
    (_store_extra_fields [(0, 0), (1, 0)] 2 [[1/2, 1/2]]).mean_probe_position =
      ((∑ c ∈ Finset.range 2,
          (([[(1 : ℚ)/2, 1/2]].map (fun row => row.getD c 0)).sum /
            (([[(1 : ℚ)/2, 1/2]] : List (List ℚ)).length : ℚ)) *
            (([((0 : ℚ), (0 : ℚ)), (1, 0)] : List (ℚ × ℚ)).getD c (0, 0)).1) / (2 : ℚ),
       (∑ c ∈ Finset.range 2,
          (([[(1 : ℚ)/2, 1/2]].map (fun row => row.getD c 0)).sum /
            (([[(1 : ℚ)/2, 1/2]] : List (List ℚ)).length : ℚ)) *
            (([((0 : ℚ), (0 : ℚ)), (1, 0)] : List (ℚ × ℚ)).getD c (0, 0)).2) / (2 : ℚ)) :=
  ⟨by simp, meanProbePos_spec [(0, 0), (1, 0)] 2 [[1/2, 1/2]] (by simp)⟩

/-! ### _spikes_per_cluster

The dictionary construction of _utils.py: argsort the cluster labels, read
off spikes and labels in sorted order, mark the boundary positions where
the diff array is positive, slice the spike array between consecutive
boundaries and sort each slice. -/

/-- The tail of the diff array: the consecutive differences
sc[i] - sc[i-1] of the sorted label array. -/
def pairDiffs (l : List Nat) : List Int :=
  (l.zip l.tail).map (fun p => (p.2 : Int) - (p.1 : Int))

/-- The np.diff-based array of _spikes_per_cluster: diff[0] = 1 and
diff[i] = sc[i] - sc[i-1]. -/
def diffList : List Nat → List Int
  | [] => []
  | c :: t => 1 :: pairDiffs (c :: t)

/-- np.nonzero(diff > 0)[0]: the positions of the positive entries, in
order; the second argument carries the index of the first element. -/
def posOf : List Int → Nat → List Nat
  | [], _ => []
  | d :: t, i => if 0 < d then i :: posOf t (i + 1) else posOf t (i + 1)

/-- The slices abs[idx[i] : idx[i+1]] between consecutive boundary
positions, the final boundary taking the rest of the list. -/
def chunks (abs : List Nat) : List Nat → List (List Nat)
  | [] => []
  | [b] => [abs.drop b]
  | b :: e :: rest => (abs.drop b).take (e - b) :: chunks abs (e :: rest)

/-- _spikes_per_cluster from _utils.py, the dictionary returned as the
association list in boundary order. Its keys are the distinct sorted
cluster labels, so the dict comprehension never collides. -/
def _spikes_per_cluster (spike_ids spike_clusters : List Nat) :
    List (Nat × List Nat) :=
  let rel_spikes := argsort spike_clusters
  let abs_spikes := rel_spikes.map (fun i => spike_ids.getD i 0)
  let sc := rel_spikes.map (fun i => spike_clusters.getD i 0)
  let idx := posOf (diffList sc) 0
  let clusters := idx.map (fun i => sc.getD i 0)
  clusters.zip ((chunks abs_spikes idx).map
    (fun l => List.insertionSort (fun x y => x ≤ y) l))

/-- The association list of _spikes_per_cluster before the inner per-slice
sort: boundary labels zipped with the slices. -/
def rawDict (sc abs : List Nat) : List (Nat × List Nat) :=
  ((posOf (diffList sc) 0).map (fun i => sc.getD i 0)).zip
    (chunks abs (posOf (diffList sc) 0))

/-- The length of the leading run of the label c in a label list. -/
def runLen (c : Nat) (l : List Nat) : Nat :=
  (l.takeWhile (fun x => x == c)).length

/-- Reference recursion for the boundary slicing: peel off the leading run
of equal labels together with the matching slice of the spike list. -/
def runsAssoc : List Nat → List Nat → List (Nat × List Nat)
  | [], _ => []
  | c :: t, abs =>
      (c, abs.take (runLen c (c :: t))) ::
        runsAssoc ((c :: t).drop (runLen c (c :: t)))
          (abs.drop (runLen c (c :: t)))
termination_by l _ => l.length
decreasing_by
  have hk : 1 ≤ runLen c (c :: t) := by simp [runLen, List.takeWhile_cons]
  simp only [List.length_drop, List.length_cons]
  omega

/-- The leading run of a cons list is nonempty. -/
theorem runLen_cons_pos (c : Nat) (t : List Nat) : 1 ≤ runLen c (c :: t) := by
  simp [runLen, List.takeWhile_cons]

/-- The leading run never exceeds the list. -/
theorem runLen_le_length (c : Nat) (l : List Nat) : runLen c l ≤ l.length := by
  simpa [runLen] using (List.takeWhile_sublist _).length_le

/-- Shifting the start index of posOf shifts every reported position. -/
theorem posOf_shift (l : List Int) :
    ∀ i k : Nat, posOf l (i + k) = (posOf l i).map (fun x => x + k) := by
  induction l with
  | nil => intro i k; rfl
  | cons d t ih =>
    intro i k
    simp only [posOf]
    have harith : i + k + 1 = (i + 1) + k := by omega
    by_cases hd : 0 < d
    · simp only [if_pos hd, List.map_cons, harith, ih]
    · simp only [if_neg hd, harith, ih]

/-- Unfolding pairDiffs on a two-element head. -/
theorem pairDiffs_cons2 (c b : Nat) (t : List Nat) :
    pairDiffs (c :: b :: t) = ((b : Int) - (c : Int)) :: pairDiffs (b :: t) := rfl

/-- On a sorted label list, the positive positions of the pairwise diffs
beyond the leading run are the boundary positions of the remainder,
shifted past the run. -/
theorem posOf_pairDiffs_run (t : List Nat) :
    ∀ c i : Nat, List.Sorted (fun x y => x ≤ y) (c :: t) →
    posOf (pairDiffs (c :: t)) (i + 1) =
      (posOf (diffList ((c :: t).drop (runLen c (c :: t)))) 0).map
        (fun x => x + (i + runLen c (c :: t))) := by
  induction t with
  | nil =>
    intro c i _
    simp [pairDiffs, posOf, runLen, List.takeWhile_cons, diffList]
  | cons b t ih =>
    intro c i hs
    by_cases hbc : b = c
    · subst hbc
      rw [pairDiffs_cons2]
      have h0 : ¬ (0 : Int) < (b : Int) - (b : Int) := by simp
      simp only [posOf, if_neg h0]
      have hs2 : List.Sorted (fun x y => x ≤ y) (b :: t) := hs.of_cons
      have hrec := ih b (i + 1) hs2
      rw [show i + 1 + 1 = (i + 1) + 1 from rfl, hrec]
      have hrun : runLen b (b :: b :: t) = runLen b (b :: t) + 1 := by
        simp [runLen, List.takeWhile_cons]
      rw [hrun]
      simp only [List.drop_succ_cons]
      have harith : i + 1 + runLen b (b :: t) = i + (runLen b (b :: t) + 1) := by omega
      rw [harith]
    · have hcb : c ≤ b := (List.sorted_cons.mp hs).1 b (by simp)
      have hlt : c < b := lt_of_le_of_ne hcb (Ne.symm hbc)
      rw [pairDiffs_cons2]
      have h0 : (0 : Int) < (b : Int) - (c : Int) := by omega
      simp only [posOf, if_pos h0]
      have hrun : runLen c (c :: b :: t) = 1 := by
        simp [runLen, List.takeWhile_cons, hbc]
      rw [hrun]
      simp only [List.drop_succ_cons, List.drop_zero]
      simp only [diffList, posOf, if_pos (show (0 : Int) < 1 by norm_num),
        List.map_cons]
      have hshift := posOf_shift (pairDiffs (b :: t)) 1 (i + 1)
      rw [show i + 1 + 1 = 1 + (i + 1) from by omega, hshift]
      simp

/-- On a sorted nonempty label list, the boundary positions are 0 followed
by the boundaries of the remainder beyond the leading run, shifted. -/
theorem posOf_diffList_peel (c : Nat) (t : List Nat)
    (hs : List.Sorted (fun x y => x ≤ y) (c :: t)) :
    posOf (diffList (c :: t)) 0 =
      0 :: (posOf (diffList ((c :: t).drop (runLen c (c :: t)))) 0).map
        (fun x => x + runLen c (c :: t)) := by
  simp only [diffList, posOf, if_pos (show (0 : Int) < 1 by norm_num)]
  have := posOf_pairDiffs_run t c 0 hs
  simpa using this

/-- Slicing against uniformly shifted boundaries is slicing the dropped
list against the original boundaries. -/
theorem chunks_shift (abs : List Nat) (k : Nat) :
    ∀ idx : List Nat,
      chunks abs (idx.map (fun x => x + k)) = chunks (abs.drop k) idx
  | [] => rfl
  | [b] => by
    simp [chunks, List.drop_drop, Nat.add_comm]
  | b :: e :: rest => by
    simp only [List.map_cons, chunks]
    have h1 : (abs.drop (b + k)).take ((e + k) - (b + k)) =
        ((abs.drop k).drop b).take (e - b) := by
      rw [List.drop_drop, Nat.add_comm k b,
        show (e + k) - (b + k) = e - b from by omega]
    have h2 : chunks abs ((e + k) :: List.map (fun x => x + k) rest) =
        chunks (abs.drop k) (e :: rest) := by
      have := chunks_shift abs k (e :: rest)
      simpa using this
    rw [h1, h2]

/-- Dropping the leading run is dropWhile on the run label. -/
theorem drop_runLen_eq_dropWhile (p : Nat → Bool) :
    ∀ l : List Nat, l.drop (l.takeWhile p).length = l.dropWhile p
  | [] => rfl
  | a :: t => by
    by_cases h : p a
    · simp [List.takeWhile_cons, List.dropWhile_cons, h,
        drop_runLen_eq_dropWhile p t]
    · simp [List.takeWhile_cons, List.dropWhile_cons, h]

/-- Beyond the leading run of a sorted label list, every label is strictly
greater than the run label. -/
theorem drop_run_gt (c : Nat) (t : List Nat)
    (hs : List.Sorted (fun x y => x ≤ y) (c :: t)) :
    ∀ x ∈ (c :: t).drop (runLen c (c :: t)), c < x := by
  rw [runLen, drop_runLen_eq_dropWhile]
  intro x hx
  rcases hE : (c :: t).dropWhile (fun y => y == c) with _ | ⟨c2, t2⟩
  · rw [hE] at hx; simp at hx
  · rw [hE] at hx
    have hw : (c :: t).dropWhile (fun y => y == c) ≠ [] := by rw [hE]; simp
    have hne2 : c2 ≠ c := by
      have h := List.head_dropWhile_not (fun y => y == c) (c :: t) hw
      have hh : ((c :: t).dropWhile (fun y => y == c)).head hw = c2 := by
        simp [hE]
      rw [hh] at h
      simpa using h
    have hsub : (c2 :: t2).Sublist (c :: t) := hE ▸ List.dropWhile_sublist _
    have hc2t : c2 ∈ t := by
      have hmemct : c2 ∈ c :: t := hsub.subset (by simp)
      rcases List.mem_cons.mp hmemct with h | h
      · exact absurd h hne2
      · exact h
    have hcc2 : c < c2 :=
      lt_of_le_of_ne ((List.sorted_cons.mp hs).1 c2 hc2t) (Ne.symm hne2)
    have hsorted2 : List.Sorted (fun x y => x ≤ y) (c2 :: t2) :=
      List.Pairwise.sublist hsub hs
    rcases List.mem_cons.mp hx with h | h
    · omega
    · have := (List.sorted_cons.mp hsorted2).1 x h
      omega

/-- Splitting a label list at its leading run. -/
theorem takeWhile_append_drop_run (c : Nat) (l : List Nat) :
    l.takeWhile (fun x => x == c) ++ l.drop (runLen c l) = l := by
  rw [runLen, drop_runLen_eq_dropWhile]
  exact List.takeWhile_append_dropWhile _ _

/-- Every element of the leading run is the run label. -/
theorem mem_takeWhile_run (c : Nat) (l : List Nat) :
    ∀ x ∈ l.takeWhile (fun y => y == c), x = c := by
  intro x hx
  simpa using List.mem_takeWhile_imp hx

/-- Unfolding equation of runsAssoc on the empty label list. -/
theorem runsAssoc_nil (abs : List Nat) : runsAssoc [] abs = [] := by
  rw [runsAssoc]

/-- Unfolding equation of runsAssoc on a nonempty label list. -/
theorem runsAssoc_cons (c : Nat) (t abs : List Nat) :
    runsAssoc (c :: t) abs =
      (c, abs.take (runLen c (c :: t))) ::
        runsAssoc ((c :: t).drop (runLen c (c :: t)))
          (abs.drop (runLen c (c :: t))) := by
  rw [runsAssoc]

/-- The boundary slicing of _spikes_per_cluster computes exactly the
run decomposition of the sorted label list. -/
theorem rawDict_eq_runsAssoc : ∀ (sc abs : List Nat),
    List.Sorted (fun x y => x ≤ y) sc → abs.length = sc.length →
    rawDict sc abs = runsAssoc sc abs
  | [], abs, _, _ => by simp [rawDict, runsAssoc_nil, diffList, posOf, chunks]
  | c :: t, abs, hs, hlen => by
    have hpeel := posOf_diffList_peel c t hs
    have hk1 : 1 ≤ runLen c (c :: t) := runLen_cons_pos c t
    have hkle : runLen c (c :: t) ≤ (c :: t).length := runLen_le_length c _
    rw [runsAssoc_cons]
    rcases hD : (c :: t).drop (runLen c (c :: t)) with _ | ⟨c2, t2⟩
    · have hklen : (c :: t).length ≤ runLen c (c :: t) := by
        have h := congrArg List.length hD
        simp only [List.length_drop, List.length_nil] at h
        omega
      have htake : abs.take (runLen c (c :: t)) = abs :=
        List.take_of_length_le (by omega)
      rw [runsAssoc_nil, htake]
      unfold rawDict
      rw [hpeel, hD]
      simp [diffList, posOf, chunks, List.getD_cons_zero]
    · have hsort2 : List.Sorted (fun x y => x ≤ y)
          ((c :: t).drop (runLen c (c :: t))) :=
        List.Pairwise.sublist (List.drop_sublist _ _) hs
      have hlen2 : (abs.drop (runLen c (c :: t))).length =
          ((c :: t).drop (runLen c (c :: t))).length := by
        simp [List.length_drop, hlen]
      have hrec := rawDict_eq_runsAssoc ((c :: t).drop (runLen c (c :: t)))
        (abs.drop (runLen c (c :: t))) hsort2 hlen2
      rw [hD] at hrec
      rw [← hrec]
      unfold rawDict
      rw [hpeel, hD]
      have hPdef : posOf (diffList (c2 :: t2)) 0 =
          0 :: posOf (pairDiffs (c2 :: t2)) 1 := rfl
      rw [hPdef]
      simp only [List.map_cons, Nat.zero_add]
      simp only [chunks, List.drop_zero, Nat.sub_zero]
      have hch : chunks abs
            (runLen c (c :: t) ::
              List.map (fun x => x + runLen c (c :: t))
                (posOf (pairDiffs (c2 :: t2)) 1)) =
          chunks (abs.drop (runLen c (c :: t)))
            (0 :: posOf (pairDiffs (c2 :: t2)) 1) := by
        have h := chunks_shift abs (runLen c (c :: t))
          (0 :: posOf (pairDiffs (c2 :: t2)) 1)
        simpa using h
      rw [hch]
      have hgetd : ∀ x : Nat, (c :: t).getD (x + runLen c (c :: t)) 0 =
          (c2 :: t2).getD x 0 := by
        intro x
        rw [← hD, List.getD_eq_getElem?_getD, List.getD_eq_getElem?_getD,
          List.getElem?_drop, Nat.add_comm]
      simp only [List.zip_cons_cons]
      congr 1
      refine congrArg (fun l : List Nat => l.zip (chunks
        (abs.drop (runLen c (c :: t)))
        (0 :: posOf (pairDiffs (c2 :: t2)) 1))) ?_
      congr 1
      · simpa using hgetd 0
      · rw [List.map_map]
        exact List.map_congr_left (fun x _ => by
          simpa [Function.comp] using hgetd x)
termination_by sc _ _ _ => sc.length
decreasing_by
  all_goals
    have hk : 1 ≤ runLen c (c :: t) := runLen_cons_pos c t
    simp only [List.length_drop, List.length_cons]
    omega

/-- The keys of the run decomposition are exactly the labels. -/
theorem runsAssoc_keys_mem : ∀ (sc abs : List Nat) (x : Nat),
    x ∈ (runsAssoc sc abs).map Prod.fst ↔ x ∈ sc
  | [], abs, x => by simp [runsAssoc_nil]
  | c :: t, abs, x => by
    rw [runsAssoc_cons]
    simp only [List.map_cons, List.mem_cons]
    constructor
    · rintro (rfl | hx)
      · simp
      · have hx2 := (runsAssoc_keys_mem _ _ x).mp hx
        exact List.mem_cons.mp ((List.drop_sublist _ _).subset hx2)
    · intro hx
      by_cases hxc : x = c
      · left; exact hxc
      · right
        apply (runsAssoc_keys_mem _ _ x).mpr
        have hsplit := takeWhile_append_drop_run c (c :: t)
        have hx3 : x ∈ (c :: t).takeWhile (fun y => y == c) ++
            (c :: t).drop (runLen c (c :: t)) := by
          rw [hsplit]
          simpa using hx
        rcases List.mem_append.mp hx3 with h | h
        · exact absurd (mem_takeWhile_run c (c :: t) x h) hxc
        · exact h
termination_by sc _ _ => sc.length
decreasing_by
  all_goals
    have hk : 1 ≤ runLen c (c :: t) := runLen_cons_pos c t
    simp only [List.length_drop, List.length_cons]
    omega

/-- The keys of the run decomposition of a sorted label list are strictly
increasing. -/
theorem runsAssoc_keys_pairwise : ∀ (sc abs : List Nat),
    List.Sorted (fun x y => x ≤ y) sc →
    ((runsAssoc sc abs).map Prod.fst).Pairwise (fun x y => x < y)
  | [], abs, _ => by simp [runsAssoc_nil]
  | c :: t, abs, hs => by
    rw [runsAssoc_cons]
    simp only [List.map_cons]
    rw [List.pairwise_cons]
    constructor
    · intro y hy
      exact drop_run_gt c t hs y ((runsAssoc_keys_mem _ _ y).mp hy)
    · exact runsAssoc_keys_pairwise _ _
        (List.Pairwise.sublist (List.drop_sublist _ _) hs)
termination_by sc _ _ => sc.length
decreasing_by
  all_goals
    have hk : 1 ≤ runLen c (c :: t) := runLen_cons_pos c t
    simp only [List.length_drop, List.length_cons]
    omega

/-- The slices of the run decomposition concatenate back to the spike
list. -/
theorem runsAssoc_flatten : ∀ (sc abs : List Nat), abs.length = sc.length →
    ((runsAssoc sc abs).map Prod.snd).flatten = abs
  | [], abs, h => by
    rw [runsAssoc_nil]
    simp only [List.map_nil, List.flatten_nil]
    simp only [List.length_nil] at h
    exact (List.eq_nil_of_length_eq_zero h).symm
  | c :: t, abs, h => by
    rw [runsAssoc_cons]
    simp only [List.map_cons, List.flatten_cons]
    rw [runsAssoc_flatten ((c :: t).drop (runLen c (c :: t)))
      (abs.drop (runLen c (c :: t))) (by simp [h])]
    exact List.take_append_drop _ _
termination_by sc _ _ => sc.length
decreasing_by
  all_goals
    have hk : 1 ≤ runLen c (c :: t) := runLen_cons_pos c t
    simp only [List.length_drop, List.length_cons]
    omega

/-- Each slice of the run decomposition holds exactly the spikes paired
with its label, in their original relative order. -/
theorem runsAssoc_values : ∀ (sc abs : List Nat),
    List.Sorted (fun x y => x ≤ y) sc → abs.length = sc.length →
    ∀ p ∈ runsAssoc sc abs,
      p.2 = ((sc.zip abs).filter (fun q => q.1 == p.1)).map Prod.snd
  | [], abs, _, _ => by simp [runsAssoc_nil]
  | c :: t, abs, hs, hlen => by
    intro p hp
    have hKle : runLen c (c :: t) ≤ abs.length := by
      have h1 := runLen_le_length c (c :: t)
      omega
    have hTWlen : ((c :: t).takeWhile (fun y => y == c)).length =
        runLen c (c :: t) := rfl
    have htklen : (abs.take (runLen c (c :: t))).length = runLen c (c :: t) := by
      simp [List.length_take]
      omega
    have hzip : (c :: t).zip abs =
        ((c :: t).takeWhile (fun y => y == c)).zip
            (abs.take (runLen c (c :: t))) ++
          ((c :: t).drop (runLen c (c :: t))).zip
            (abs.drop (runLen c (c :: t))) := by
      conv_lhs => rw [← takeWhile_append_drop_run c (c :: t),
        ← List.take_append_drop (runLen c (c :: t)) abs]
      rw [List.zip_append (by rw [hTWlen, htklen])]
    rw [runsAssoc_cons] at hp
    rcases List.mem_cons.mp hp with hphead | hptail
    · rw [hphead]
      rw [hzip, List.filter_append]
      have hfilter1 : (((c :: t).takeWhile (fun y => y == c)).zip
          (abs.take (runLen c (c :: t)))).filter (fun q => q.1 == c) =
          ((c :: t).takeWhile (fun y => y == c)).zip
            (abs.take (runLen c (c :: t))) := by
        rw [List.filter_eq_self]
        intro q hq
        have hq1 := mem_takeWhile_run c (c :: t) q.1 (List.of_mem_zip hq).1
        simp [hq1]
      have hfilter2 : (((c :: t).drop (runLen c (c :: t))).zip
          (abs.drop (runLen c (c :: t)))).filter (fun q => q.1 == c) = [] := by
        rw [List.filter_eq_nil_iff]
        intro q hq
        have hgt := drop_run_gt c t hs q.1 (List.of_mem_zip hq).1
        simp
        omega
      rw [hfilter1, hfilter2, List.append_nil, List.map_snd_zip]
      rw [hTWlen, htklen]
    · have hsort2 : List.Sorted (fun x y => x ≤ y)
          ((c :: t).drop (runLen c (c :: t))) :=
        List.Pairwise.sublist (List.drop_sublist _ _) hs
      have hlen2 : (abs.drop (runLen c (c :: t))).length =
          ((c :: t).drop (runLen c (c :: t))).length := by
        simp [List.length_drop, hlen]
      have hrec := runsAssoc_values ((c :: t).drop (runLen c (c :: t)))
        (abs.drop (runLen c (c :: t))) hsort2 hlen2 p hptail
      rw [hrec, hzip, List.filter_append]
      have hp1drop : p.1 ∈ (c :: t).drop (runLen c (c :: t)) :=
        (runsAssoc_keys_mem _ _ p.1).mp (List.mem_map_of_mem Prod.fst hptail)
      have hcp1 : c < p.1 := drop_run_gt c t hs p.1 hp1drop
      have hfilter1 : (((c :: t).takeWhile (fun y => y == c)).zip
          (abs.take (runLen c (c :: t)))).filter (fun q => q.1 == p.1) = [] := by
        rw [List.filter_eq_nil_iff]
        intro q hq
        have hq1 := mem_takeWhile_run c (c :: t) q.1 (List.of_mem_zip hq).1
        simp [hq1]
        omega
      rw [hfilter1, List.nil_append]
termination_by sc _ _ _ => sc.length
decreasing_by
  all_goals
    have hk : 1 ≤ runLen c (c :: t) := runLen_cons_pos c t
    simp only [List.length_drop, List.length_cons]
    omega

/-- The sorted label list read off by _spikes_per_cluster. -/
def sortedLabels (spike_clusters : List Nat) : List Nat :=
  (argsort spike_clusters).map (fun i => spike_clusters.getD i 0)

/-- The spike ids read off in label-sorted order by _spikes_per_cluster. -/
def sortedSpikes (spike_ids spike_clusters : List Nat) : List Nat :=
  (argsort spike_clusters).map (fun i => spike_ids.getD i 0)

/-- The label list read off along the argsort order is sorted. -/
theorem sortedLabels_sorted (cls : List Nat) :
    List.Sorted (fun x y => x ≤ y) (sortedLabels cls) := by
  have h := List.sorted_insertionSort (keyLe cls) (List.range cls.length)
  exact List.Pairwise.map _ (fun a b hab => hab) h

/-- The sorted label list is a permutation of the labels. -/
theorem sortedLabels_perm (cls : List Nat) : (sortedLabels cls).Perm cls := by
  have h := (List.perm_insertionSort (keyLe cls) (List.range cls.length)).map
    (fun i => cls.getD i 0)
  exact h.trans (by rw [range_map_getD])

/-- The reordered spike ids are a permutation of the spike ids. -/
theorem sortedSpikes_perm (ids cls : List Nat) (h : ids.length = cls.length) :
    (sortedSpikes ids cls).Perm ids := by
  have h2 := (List.perm_insertionSort (keyLe cls) (List.range cls.length)).map
    (fun i => ids.getD i 0)
  refine h2.trans ?_
  rw [← h, range_map_getD]

/-- Lengths of the two reorderings agree. -/
theorem sortedSpikes_length (ids cls : List Nat) :
    (sortedSpikes ids cls).length = (sortedLabels cls).length := by
  simp [sortedSpikes, sortedLabels]

/-- The (label, id) pairs in sorted order are a permutation of the
original pairing. -/
theorem sorted_zip_perm (ids cls : List Nat) (h : ids.length = cls.length) :
    ((sortedLabels cls).zip (sortedSpikes ids cls)).Perm (cls.zip ids) := by
  unfold sortedLabels sortedSpikes
  rw [List.zip_map']
  have hperm := (List.perm_insertionSort (keyLe cls) (List.range cls.length)).map
    (fun i => (cls.getD i 0, ids.getD i 0))
  exact hperm.trans (by rw [range_map_getD_pair cls ids 0 0 h])

/-- _spikes_per_cluster is the run decomposition of the sorted labels,
with every slice sorted. -/
theorem spikes_per_cluster_eq (spike_ids spike_clusters : List Nat) :
    _spikes_per_cluster spike_ids spike_clusters =
      (runsAssoc (sortedLabels spike_clusters)
        (sortedSpikes spike_ids spike_clusters)).map
        (fun p => (p.1, List.insertionSort (fun x y => x ≤ y) p.2)) := by
  have hbridge := rawDict_eq_runsAssoc (sortedLabels spike_clusters)
    (sortedSpikes spike_ids spike_clusters)
    (sortedLabels_sorted spike_clusters)
    (sortedSpikes_length spike_ids spike_clusters)
  rw [← hbridge]
  simp only [_spikes_per_cluster, rawDict, sortedLabels, sortedSpikes]
  rw [List.zip_map_right]
  exact List.map_congr_left (fun p _ => rfl)

/-- C1: for a non-empty spike_clusters array and matching spike_ids array
(spike ids are distinct), _spikes_per_cluster returns a dictionary whose
keys are exactly the distinct labels of spike_clusters, whose value for
each label is the ascending-sorted sequence of the spike ids paired with
that label, and whose values are pairwise disjoint with union equal to the
spike_ids population exactly once. -/
theorem spikes_per_cluster_spec (spike_ids spike_clusters : List Nat)
    (hne : spike_clusters ≠ [])
    (hlen : spike_ids.length = spike_clusters.length)
    (hnd : spike_ids.Nodup) :
    (((_spikes_per_cluster spike_ids spike_clusters).map Prod.fst).Nodup ∧
      (∀ c, c ∈ (_spikes_per_cluster spike_ids spike_clusters).map Prod.fst ↔
        c ∈ spike_clusters)) ∧
    (∀ p ∈ _spikes_per_cluster spike_ids spike_clusters,
      List.Sorted (fun x y => x ≤ y) p.2 ∧
      p.2.Perm (((spike_clusters.zip spike_ids).filter
        (fun q => q.1 == p.1)).map Prod.snd)) ∧
    ((_spikes_per_cluster spike_ids spike_clusters).map Prod.snd).flatten.Perm
      spike_ids ∧
    List.Pairwise List.Disjoint
      ((_spikes_per_cluster spike_ids spike_clusters).map Prod.snd) := by
  have hEq := spikes_per_cluster_eq spike_ids spike_clusters
  have hsorted := sortedLabels_sorted spike_clusters
  have hlen2 := sortedSpikes_length spike_ids spike_clusters
  have hkeys : (_spikes_per_cluster spike_ids spike_clusters).map Prod.fst =
      (runsAssoc (sortedLabels spike_clusters)
        (sortedSpikes spike_ids spike_clusters)).map Prod.fst := by
    rw [hEq, List.map_map]
    exact List.map_congr_left (fun p _ => rfl)
  have hsnd : (_spikes_per_cluster spike_ids spike_clusters).map Prod.snd =
      ((runsAssoc (sortedLabels spike_clusters)
        (sortedSpikes spike_ids spike_clusters)).map Prod.snd).map
        (List.insertionSort (fun x y => x ≤ y)) := by
    rw [hEq, List.map_map, List.map_map]
    exact List.map_congr_left (fun p _ => rfl)
  have hflat : ((_spikes_per_cluster spike_ids spike_clusters).map
      Prod.snd).flatten.Perm spike_ids := by
    rw [hsnd]
    have h1 := flatten_map_perm (List.insertionSort (fun x y => x ≤ y))
      ((runsAssoc (sortedLabels spike_clusters)
        (sortedSpikes spike_ids spike_clusters)).map Prod.snd)
      (fun x _ => List.perm_insertionSort _ x)
    rw [runsAssoc_flatten _ _ hlen2] at h1
    exact h1.trans (sortedSpikes_perm spike_ids spike_clusters hlen)
  refine ⟨⟨?_, ?_⟩, ?_, hflat, ?_⟩
  · rw [hkeys]
    exact (runsAssoc_keys_pairwise _ _ hsorted).imp (fun h => Nat.ne_of_lt h)
  · intro cc
    rw [hkeys, runsAssoc_keys_mem]
    exact (sortedLabels_perm spike_clusters).mem_iff
  · intro p hp
    rw [hEq] at hp
    obtain ⟨q, hq, rfl⟩ := List.mem_map.mp hp
    refine ⟨List.sorted_insertionSort _ _, ?_⟩
    have hval := runsAssoc_values _ _ hsorted hlen2 q hq
    have hzipperm := sorted_zip_perm spike_ids spike_clusters hlen
    refine (List.perm_insertionSort _ q.2).trans ?_
    show q.2.Perm (((spike_clusters.zip spike_ids).filter
      (fun qq => qq.1 == q.1)).map Prod.snd)
    rw [hval]
    exact (hzipperm.filter (fun qq => qq.1 == q.1)).map Prod.snd
  · have hnodup : ((_spikes_per_cluster spike_ids spike_clusters).map
        Prod.snd).flatten.Nodup := List.Nodup.perm hnd hflat.symm
    exact (List.nodup_flatten.mp hnodup).2

/-- Witness for spikes_per_cluster_spec at the concrete input
spike_ids = [3, 1, 5, 2], spike_clusters = [7, 2, 7, 9]; the dictionary is
2 -> [1], 7 -> [3, 5], 9 -> [2]. -/
theorem spikes_per_cluster_spec_witness :
    (([7, 2, 7, 9] : List Nat) ≠ [] ∧
     ([3, 1, 5, 2] : List Nat).length = ([7, 2, 7, 9] : List Nat).length ∧
     ([3, 1, 5, 2] : List Nat).Nodup) ∧
    _spikes_per_cluster [3, 1, 5, 2] [7, 2, 7, 9] =
      [(2, [1]), (7, [3, 5]), (9, [2])] ∧
    ((((_spikes_per_cluster [3, 1, 5, 2] [7, 2, 7, 9]).map Prod.fst).Nodup ∧
      (∀ c, c ∈ (_spikes_per_cluster [3, 1, 5, 2] [7, 2, 7, 9]).map Prod.fst ↔
        c ∈ ([7, 2, 7, 9] : List Nat))) ∧
    (∀ p ∈ _spikes_per_cluster [3, 1, 5, 2] [7, 2, 7, 9],
      List.Sorted (fun x y => x ≤ y) p.2 ∧
      p.2.Perm (((([7, 2, 7, 9] : List Nat).zip
        ([3, 1, 5, 2] : List Nat)).filter
        (fun q => q.1 == p.1)).map Prod.snd)) ∧
    ((_spikes_per_cluster [3, 1, 5, 2] [7, 2, 7, 9]).map Prod.snd).flatten.Perm
      [3, 1, 5, 2] ∧
    List.Pairwise List.Disjoint
      ((_spikes_per_cluster [3, 1, 5, 2] [7, 2, 7, 9]).map Prod.snd)) :=
  ⟨⟨by decide, by decide, by decide⟩, by decide,
    spikes_per_cluster_spec [3, 1, 5, 2] [7, 2, 7, 9]
      (by decide) (by decide) (by decide)⟩

/-! ### _concatenate_per_cluster_arrays -/

/-- Python dict lookup on an association list whose keys are unique. -/
def lookupD {β : Type} (d : List (Nat × β)) (c : Nat) (dflt : β) : β :=
  match d.find? (fun p => p.1 == c) with
  | some p => p.2
  | none => dflt

/-- Python sorted() on a list of keys. -/
def sortNat (l : List Nat) : List Nat :=
  List.insertionSort (fun x y => x ≤ y) l

/-- _concatenate_per_cluster_arrays from _utils.py: concatenate the
per-cluster spike lists and row lists in ascending cluster order, argsort
the concatenated spikes, and reorder the concatenated rows by that
argsort. -/
def _concatenate_per_cluster_arrays {α : Type} [Inhabited α]
    (spikes_per_cluster : List (Nat × List Nat))
    (arrays : List (Nat × List α)) : List α :=
  let clusters := sortNat (arrays.map Prod.fst)
  let spikes := (clusters.map (fun c => lookupD spikes_per_cluster c [])).flatten
  let idx := argsort spikes
  let arrs := (clusters.map (fun c => lookupD arrays c [])).flatten
  idx.map (fun i => arrs.getD i default)

/-- Ordering of key-value pairs by key. -/
def fstLe {β : Type} (p q : Nat × β) : Prop := p.1 ≤ q.1

instance {β : Type} : DecidableRel (fstLe (β := β)) :=
  fun _ _ => Nat.decLe _ _

instance {β : Type} : IsTotal (Nat × β) fstLe :=
  ⟨fun _ _ => Nat.le_total _ _⟩

instance {β : Type} : IsTrans (Nat × β) fstLe :=
  ⟨fun _ _ _ h h2 => Nat.le_trans h h2⟩

/-- Looking a key up in an association list with unique keys returns the
value stored with it. -/
theorem lookupD_of_mem {β : Type} : ∀ (d : List (Nat × β)) (e : Nat × β)
    (dflt : β), (d.map Prod.fst).Nodup → e ∈ d → lookupD d e.1 dflt = e.2
  | [], e, dflt, _, he => absurd he (by simp)
  | a :: t, e, dflt, hnd, he => by
    rcases List.mem_cons.mp he with rfl | he2
    · simp [lookupD, List.find?_cons_of_pos]
    · have hne : (a.1 == e.1) = false := by
        have h1 : e.1 ∈ t.map Prod.fst := List.mem_map_of_mem Prod.fst he2
        have h2 := (List.pairwise_cons.mp hnd).1 _ h1
        simpa using h2
      have hnd2 : (t.map Prod.fst).Nodup := (List.pairwise_cons.mp hnd).2
      have hstep : lookupD (a :: t) e.1 dflt = lookupD t e.1 dflt := by
        unfold lookupD
        rw [List.find?_cons_of_neg t (by simp [hne])]
      rw [hstep]
      exact lookupD_of_mem t e dflt hnd2 he2

/-- Zipping two flattened lists chunk by chunk, when the chunk lengths
agree. -/
theorem flatten_zip_flatten {β γ : Type} : ∀ (L : List (List β × List γ)),
    (∀ p ∈ L, p.1.length = p.2.length) →
    ((L.map Prod.fst).flatten).zip ((L.map Prod.snd).flatten) =
      (L.map (fun p => p.1.zip p.2)).flatten
  | [], _ => rfl
  | p :: L, h => by
    simp only [List.map_cons, List.flatten_cons]
    rw [List.zip_append (h p (by simp)),
      flatten_zip_flatten L (fun q hq => h q (List.mem_cons_of_mem p hq))]

/-- A list of pairs sorted weakly by key with no duplicate key is sorted
strictly by key. -/
theorem pairwise_lt_of_fstLe_nodup {β : Type} (l : List (Nat × β))
    (h1 : l.Pairwise fstLe) (h2 : (l.map Prod.fst).Nodup) :
    l.Pairwise (fun p q => p.1 < q.1) := by
  have h3 : l.Pairwise (fun p q => p.1 ≠ q.1) := List.pairwise_map.mp h2
  exact (h1.and h3).imp (fun hab => lt_of_le_of_ne hab.1 hab.2)

/-- Zipping a list with its own image lists the graph of the function. -/
theorem zip_self_map {β γ : Type} (l : List β) (g : β → γ) :
    l.zip (l.map g) = l.map (fun s => (s, g s)) := by
  induction l with
  | nil => rfl
  | cons a t ih => simp [ih]

/-- The argsort-ordered (key, row) pairs are the pairs sorted by key, when
keys are distinct. -/
theorem argsort_pairs {α : Type} [Inhabited α] (S : List Nat) (A : List α)
    (hlen : A.length = S.length) (hnd : S.Nodup) :
    (argsort S).map (fun i => (S.getD i 0, A.getD i default)) =
      (S.zip A).insertionSort fstLe := by
  have hidx := List.perm_insertionSort (keyLe S) (List.range S.length)
  refine eq_of_perm_of_pairwise_lt ?_ ?_ ?_
  · have h1 := hidx.map (fun i => (S.getD i 0, A.getD i default))
    rw [range_map_getD_pair S A 0 default hlen] at h1
    exact h1.trans (List.perm_insertionSort fstLe (S.zip A)).symm
  · apply pairwise_lt_of_fstLe_nodup
    · exact List.Pairwise.map _ (fun a b hab => hab)
        (List.sorted_insertionSort (keyLe S) (List.range S.length))
    · have h1 : ((argsort S).map
          (fun i => (S.getD i 0, A.getD i default))).map Prod.fst =
          (argsort S).map (fun i => S.getD i 0) := by
        rw [List.map_map]
        exact List.map_congr_left (fun i _ => rfl)
      rw [h1]
      have h2 := hidx.map (fun i => S.getD i 0)
      rw [range_map_getD] at h2
      exact List.Nodup.perm hnd h2.symm
  · apply pairwise_lt_of_fstLe_nodup
    · exact List.sorted_insertionSort fstLe (S.zip A)
    · have h1 := (List.perm_insertionSort fstLe (S.zip A)).map Prod.fst
      rw [List.map_fst_zip S A (by omega)] at h1
      exact List.Nodup.perm hnd h1.symm

/-- Reordering rows by the argsort of distinct keys produces the rows of
the key-sorted pairs. -/
theorem argsort_reorder {α : Type} [Inhabited α] (S : List Nat) (A : List α)
    (hlen : A.length = S.length) (hnd : S.Nodup) :
    (argsort S).map (fun i => A.getD i default) =
      ((S.zip A).insertionSort fstLe).map Prod.snd := by
  rw [← argsort_pairs S A hlen hnd, List.map_map]
  exact List.map_congr_left (fun i _ => rfl)

/-- The general reordering property of _concatenate_per_cluster_arrays for
dicts presented as one keyed list (cluster, spikes, rows): the result is
the rows of all (spike id, row) pairs sorted by spike id. -/
theorem concat_general {α : Type} [Inhabited α]
    (data : List (Nat × List Nat × List α))
    (hkeys : (data.map Prod.fst).Nodup)
    (hlen : ∀ d ∈ data, d.2.1.length = d.2.2.length)
    (hS : ((data.map (fun d => d.2.1)).flatten).Nodup) :
    _concatenate_per_cluster_arrays (data.map (fun d => (d.1, d.2.1)))
        (data.map (fun d => (d.1, d.2.2))) =
      (((data.map (fun d => d.2.1.zip d.2.2)).flatten).insertionSort
        fstLe).map Prod.snd := by
  have hsdperm : (data.insertionSort fstLe).Perm data :=
    List.perm_insertionSort _ _
  have hsdsorted : (data.insertionSort fstLe).Pairwise fstLe :=
    List.sorted_insertionSort _ _
  have harrkeys : (data.map (fun d => (d.1, d.2.2))).map Prod.fst =
      data.map Prod.fst := by
    rw [List.map_map]
    exact List.map_congr_left (fun d _ => rfl)
  have hspckeys : (data.map (fun d => (d.1, d.2.1))).map Prod.fst =
      data.map Prod.fst := by
    rw [List.map_map]
    exact List.map_congr_left (fun d _ => rfl)
  have hclusters : sortNat (data.map Prod.fst) =
      (data.insertionSort fstLe).map Prod.fst := by
    refine List.eq_of_perm_of_sorted (r := fun x y : Nat => x ≤ y) ?_ ?_ ?_
    · exact (List.perm_insertionSort _ _).trans (hsdperm.map Prod.fst).symm
    · exact List.sorted_insertionSort _ _
    · exact List.Pairwise.map _ (fun a b hab => hab) hsdsorted
  have hlookS : ((data.insertionSort fstLe).map Prod.fst).map
      (fun c => lookupD (data.map (fun d => (d.1, d.2.1))) c []) =
      (data.insertionSort fstLe).map (fun d => d.2.1) := by
    rw [List.map_map]
    refine List.map_congr_left (fun d hd => ?_)
    exact lookupD_of_mem (data.map (fun d => (d.1, d.2.1))) (d.1, d.2.1) []
      (by rw [hspckeys]; exact hkeys)
      (List.mem_map_of_mem _ (hsdperm.subset hd))
  have hlookA : ((data.insertionSort fstLe).map Prod.fst).map
      (fun c => lookupD (data.map (fun d => (d.1, d.2.2))) c []) =
      (data.insertionSort fstLe).map (fun d => d.2.2) := by
    rw [List.map_map]
    refine List.map_congr_left (fun d hd => ?_)
    exact lookupD_of_mem (data.map (fun d => (d.1, d.2.2))) (d.1, d.2.2) []
      (by rw [harrkeys]; exact hkeys)
      (List.mem_map_of_mem _ (hsdperm.subset hd))
  have hAS : (((data.insertionSort fstLe).map
      (fun d => d.2.2)).flatten).length =
      (((data.insertionSort fstLe).map (fun d => d.2.1)).flatten).length := by
    simp only [List.length_flatten, List.map_map]
    congr 1
    exact List.map_congr_left (fun d hd => (hlen d (hsdperm.subset hd)).symm)
  have hSperm : (((data.insertionSort fstLe).map
      (fun d => d.2.1)).flatten).Perm
      ((data.map (fun d => d.2.1)).flatten) := (hsdperm.map _).flatten
  have hSnodup : (((data.insertionSort fstLe).map
      (fun d => d.2.1)).flatten).Nodup := List.Nodup.perm hS hSperm.symm
  have hzipeq : (((data.insertionSort fstLe).map
        (fun d => d.2.1)).flatten).zip
      (((data.insertionSort fstLe).map (fun d => d.2.2)).flatten) =
      ((data.insertionSort fstLe).map (fun d => d.2.1.zip d.2.2)).flatten := by
    have hlens : ∀ p ∈ (data.insertionSort fstLe).map
        (fun d => (d.2.1, d.2.2)), p.1.length = p.2.length := by
      intro p hp
      obtain ⟨d, hd, rfl⟩ := List.mem_map.mp hp
      exact hlen d (hsdperm.subset hd)
    have h := flatten_zip_flatten
      ((data.insertionSort fstLe).map (fun d => (d.2.1, d.2.2))) hlens
    rw [List.map_map, List.map_map, List.map_map] at h
    exact h
  have hPperm : (((data.insertionSort fstLe).map
      (fun d => d.2.1.zip d.2.2)).flatten).Perm
      ((data.map (fun d => d.2.1.zip d.2.2)).flatten) := (hsdperm.map _).flatten
  have hsorts : ((((data.insertionSort fstLe).map
        (fun d => d.2.1)).flatten).zip
      (((data.insertionSort fstLe).map
        (fun d => d.2.2)).flatten)).insertionSort fstLe =
      ((data.map (fun d => d.2.1.zip d.2.2)).flatten).insertionSort fstLe := by
    refine eq_of_perm_of_pairwise_lt ?_ ?_ ?_
    · refine (List.perm_insertionSort _ _).trans ?_
      rw [hzipeq]
      exact hPperm.trans (List.perm_insertionSort _ _).symm
    · apply pairwise_lt_of_fstLe_nodup
      · exact List.sorted_insertionSort _ _
      · have h1 := (List.perm_insertionSort fstLe
          ((((data.insertionSort fstLe).map (fun d => d.2.1)).flatten).zip
            (((data.insertionSort fstLe).map
              (fun d => d.2.2)).flatten))).map Prod.fst
        rw [List.map_fst_zip _ _ (by omega)] at h1
        exact List.Nodup.perm hSnodup h1.symm
    · apply pairwise_lt_of_fstLe_nodup
      · exact List.sorted_insertionSort _ _
      · have hp1 : (((data.map
            (fun d => d.2.1.zip d.2.2)).flatten).insertionSort fstLe).Perm
            ((((data.insertionSort fstLe).map (fun d => d.2.1)).flatten).zip
              (((data.insertionSort fstLe).map
                (fun d => d.2.2)).flatten)) := by
          rw [hzipeq]
          exact (List.perm_insertionSort _ _).trans hPperm.symm
        have h2 := hp1.map Prod.fst
        rw [List.map_fst_zip _ _ (by omega)] at h2
        exact List.Nodup.perm hSnodup h2.symm
  simp only [_concatenate_per_cluster_arrays]
  rw [harrkeys, hclusters, hlookS, hlookA]
  rw [argsort_reorder _ _ hAS hSnodup, hsorts]

/-- C2: for spikes_per_cluster and arrays dicts over the same clusters
(presented as one keyed list), with one row per spike of each cluster and
distinct spike ids, _concatenate_per_cluster_arrays returns the rows of
all groups reordered by ascending spike id (the row half of the pairs
sorted by spike id); in particular, when the spike ids are 0..n-1 and
each cluster's rows are the rows of an original per-item list at that
cluster's spikes, the result reproduces the original list exactly. -/
theorem concatenate_per_cluster_spec {α : Type} [Inhabited α]
    (data : List (Nat × List Nat × List α))
    (hkeys : (data.map Prod.fst).Nodup)
    (hlen : ∀ d ∈ data, d.2.1.length = d.2.2.length)
    (hS : ((data.map (fun d => d.2.1)).flatten).Nodup) :
    (_concatenate_per_cluster_arrays (data.map (fun d => (d.1, d.2.1)))
        (data.map (fun d => (d.1, d.2.2))) =
      (((data.map (fun d => d.2.1.zip d.2.2)).flatten).insertionSort
        fstLe).map Prod.snd) ∧
    ∀ orig : List α,
      (∀ d ∈ data, d.2.2 = d.2.1.map (fun s => orig.getD s default)) →
      ((data.map (fun d => d.2.1)).flatten).Perm
        (List.range orig.length) →
      _concatenate_per_cluster_arrays (data.map (fun d => (d.1, d.2.1)))
          (data.map (fun d => (d.1, d.2.2))) = orig := by
  have hgen := concat_general data hkeys hlen hS
  refine ⟨hgen, fun orig hbuild hperm => ?_⟩
  rw [hgen]
  have hP : (data.map (fun d => d.2.1.zip d.2.2)).flatten =
      ((data.map (fun d => d.2.1)).flatten).map
        (fun s => (s, orig.getD s default)) := by
    rw [List.map_flatten]
    congr 1
    rw [List.map_map]
    refine List.map_congr_left (fun d hd => ?_)
    rw [hbuild d hd]
    exact zip_self_map _ _
  rw [hP]
  have hsort : ((((data.map (fun d => d.2.1)).flatten).map
      (fun s => (s, orig.getD s default))).insertionSort fstLe) =
      (List.range orig.length).map (fun s => (s, orig.getD s default)) := by
    refine eq_of_perm_of_pairwise_lt ?_ ?_ ?_
    · exact (List.perm_insertionSort _ _).trans (hperm.map _)
    · apply pairwise_lt_of_fstLe_nodup
      · exact List.sorted_insertionSort _ _
      · have h1 := (List.perm_insertionSort fstLe
          (((data.map (fun d => d.2.1)).flatten).map
            (fun s => (s, orig.getD s default)))).map Prod.fst
        have h3 : (((data.map (fun d => d.2.1)).flatten).map
            (fun s => (s, orig.getD s default))).map Prod.fst =
            (data.map (fun d => d.2.1)).flatten := by
          rw [List.map_map]
          refine (List.map_congr_left (fun s _ => rfl)).trans ?_
          exact List.map_id _
        rw [h3] at h1
        exact List.Nodup.perm hS h1.symm
    · exact List.Pairwise.map _ (fun a b hab => hab)
        (List.pairwise_lt_range orig.length)
  rw [hsort, List.map_map]
  exact range_map_getD orig default

/-- Witness for concatenate_per_cluster_spec at the concrete input:
clusters 2 (spikes [1, 3]) and 5 (spikes [0, 2]), rows drawn from the
original list [40, 10, 50, 30]. -/
theorem concatenate_per_cluster_spec_witness :
    ((([(2, ([1, 3], [10, 30])), (5, ([0, 2], [40, 50]))] :
        List (Nat × List Nat × List Nat)).map Prod.fst).Nodup ∧
      (∀ d ∈ ([(2, ([1, 3], [10, 30])), (5, ([0, 2], [40, 50]))] :
        List (Nat × List Nat × List Nat)), d.2.1.length = d.2.2.length) ∧
      ((([(2, ([1, 3], [10, 30])), (5, ([0, 2], [40, 50]))] :
        List (Nat × List Nat × List Nat)).map
          (fun d => d.2.1)).flatten).Nodup) ∧
    _concatenate_per_cluster_arrays [(2, [1, 3]), (5, [0, 2])]
      [(2, [10, 30]), (5, [40, 50])] = [40, 10, 50, 30] :=
  ⟨⟨by decide, by decide, by decide⟩,
    (concatenate_per_cluster_spec
      [(2, ([1, 3], [10, 30])), (5, ([0, 2], [40, 50]))]
      (by decide) (by decide) (by decide)).2
      [40, 10, 50, 30] (by decide) (by decide)⟩

/-! ### FeatureMasks.store_all_clusters

The write pass of session.py. The state carries exactly what the claims
below are about: the per-(field, cluster) persistent arrays written
through per-cluster cursors, the lazily opened file handles, the memory
store filled by the aggregation pass, the progress events, and an aborted
flag. Reading one spike's slice of model.features_masks
(_data(name, spike)) is abstracted into dataV; dataOk models whether that
read raises (a StoreIOError from the persistent medium). Python
exceptions propagate out of the call, so once a read raises, nothing
later in the call runs — including the bulk close loop at the end. -/

/-- Configuration of one store_all_clusters call: the source model data,
the to_store decisions computed by _clusters_to_store, and the blank
arrays created by _prepare_file. -/
structure PassCfg (α μ : Type) where
  spike_clusters : List Nat
  clusterKeys : List Nat
  toStore : Nat → String → Bool
  dataV : String → Nat → α
  dataOk : String → Nat → Bool
  sizes : Nat → Nat
  zeroRow : α
  preexisting : String → Nat → List α
  extraF : List α → List α → μ
  usePr : Bool

/-- The mutable state of one store_all_clusters call. -/
structure PassState (α μ : Type) where
  arrays : String → Nat → List α
  cursors : String → Nat → Nat
  openFiles : List (String × Nat)
  memory : List (Nat × μ)
  progress : List (String × Nat)
  aborted : Bool

/-- State at entry: entries marked for population were blanked by
_prepare_file to zero arrays of their declared first-axis length; the
others keep their pre-existing bytes. All cursors start at zero (the
defaultdict(int)), no handle is open, the memory store and progress log
are empty. -/
def initState {α μ : Type} (cfg : PassCfg α μ) : PassState α μ :=
  { arrays := fun name c =>
      if cfg.toStore c name then List.replicate (cfg.sizes c) cfg.zeroRow
      else cfg.preexisting name c
    cursors := fun _ _ => 0
    openFiles := []
    memory := []
    progress := []
    aborted := false }

/-- The clusters list of store_all_clusters: the sorted keys of
spikes_per_cluster whose masks or features entry needs storing. -/
def storeClustersList {α μ : Type} (cfg : PassCfg α μ) : List Nat :=
  (List.insertionSort (fun x y => x ≤ y) cfg.clusterKeys).filter
    (fun c => cfg.toStore c "masks" || cfg.toStore c "features")

/-- _spikes_in_clusters from _utils.py:
np.nonzero(np.in1d(spike_clusters, clusters))[0]. -/
def _spikes_in_clusters (spike_clusters clusters : List Nat) : List Nat :=
  if spike_clusters.length = 0 ∨ clusters.length = 0 then []
  else (List.range spike_clusters.length).filter
    (fun i => decide (spike_clusters.getD i 0 ∈ clusters))

/-- One iteration of the inner field loop for one spike: if the spike's
cluster is marked for this field, read the data slice (this may raise),
open the cluster file on first write, store the slice at the cursor and
advance the cursor. -/
def stepName {α μ : Type} (cfg : PassCfg α μ) (spike : Nat) (name : String)
    (st : PassState α μ) : PassState α μ :=
  if st.aborted then st
  else
    let c := cfg.spike_clusters.getD spike 0
    if cfg.toStore c name then
      if cfg.dataOk name spike then
        let st2 := if (name, c) ∈ st.openFiles then st
          else { st with openFiles := st.openFiles ++ [(name, c)] }
        let i := st2.cursors name c
        { st2 with
          arrays := fun n cl =>
            if n = name ∧ cl = c then
              (st2.arrays n cl).set i (cfg.dataV name spike)
            else st2.arrays n cl
          cursors := fun n cl =>
            if n = name ∧ cl = c then i + 1 else st2.cursors n cl }
      else { st with aborted := true }
    else st

/-- One iteration of the spike loop: the field loop over
('masks', 'features'), then the progress report every 100 iterations. -/
def stepSpike {α μ : Type} (cfg : PassCfg α μ) (it spike : Nat)
    (st : PassState α μ) : PassState α μ :=
  if st.aborted then st
  else
    let st2 := stepName cfg spike "features" (stepName cfg spike "masks" st)
    if !st2.aborted && cfg.usePr && it % 100 == 0 then
      { st2 with progress := st2.progress ++ [("features_masks", 100)] }
    else st2

/-- One iteration of the aggregation loop: load the cluster's features
and masks back from the store, write the extra fields to the memory
store, and report progress once per cluster. -/
def stepExtra {α μ : Type} (cfg : PassCfg α μ) (c : Nat)
    (st : PassState α μ) : PassState α μ :=
  if st.aborted then st
  else
    let st2 := { st with
      memory := st.memory ++ [(c, cfg.extraF (st.arrays "features" c)
        (st.arrays "masks" c))] }
    if cfg.usePr then
      { st2 with progress := st2.progress ++ [("masks_extra", 1)] }
    else st2

/-- The bulk close loop at the end of the pass — reached only when no
exception aborted the call earlier. -/
def closeFiles {α μ : Type} (st : PassState α μ) : PassState α μ :=
  if st.aborted then st else { st with openFiles := [] }

/-- FeatureMasks.store_all_clusters from session.py: initialize the
blanked arrays, set the progress maxima, loop once over the spikes of the
clusters to store in ascending id order, loop over all clusters for the
extra fields, and close the opened files. -/
def store_all_clusters {α μ : Type} (cfg : PassCfg α μ) : PassState α μ :=
  let clusters := storeClustersList cfg
  let spikes := _spikes_in_clusters cfg.spike_clusters clusters
  let st0 := initState cfg
  let st1 := if cfg.usePr then
      { st0 with progress := [("set_max_features_masks", spikes.length),
        ("set_max_masks_extra", cfg.clusterKeys.length)] }
    else st0
  let st2 := ((List.range spikes.length).zip spikes).foldl
    (fun st p => stepSpike cfg p.1 p.2 st) st1
  let st3 := (List.insertionSort (fun x y => x ≤ y) cfg.clusterKeys).foldl
    (fun st c => stepExtra cfg c st) st2
  closeFiles st3

/-- Sequential writes through a cursor, as performed by the spike loop on
one (field, cluster) array. -/
def writeSeq {α : Type} : List α → Nat → List α → List α
  | arr, _, [] => arr
  | arr, i, d :: ds => writeSeq (arr.set i d) (i + 1) ds

/-- Taking one element beyond an in-range set index splits off the set
value. -/
theorem set_take_succ {α : Type} (arr : List α) (i : Nat) (d : α)
    (hi : i < arr.length) :
    (arr.set i d).take (i + 1) = arr.take i ++ [d] := by
  rw [List.set_eq_take_append_cons_drop, if_pos hi]
  have hlen : (arr.take i).length = i := by
    rw [List.length_take]
    exact Nat.min_eq_left (Nat.le_of_lt hi)
  calc (arr.take i ++ d :: arr.drop (i + 1)).take (i + 1)
      = (arr.take i ++ d :: arr.drop (i + 1)).take ((arr.take i).length + 1) := by
        rw [hlen]
    _ = arr.take i ++ (d :: arr.drop (i + 1)).take 1 := List.take_append 1
    _ = arr.take i ++ [d] := by simp

/-- Writing a full batch through the cursor fills the array from the
cursor on. -/
theorem writeSeq_fills {α : Type} :
    ∀ (ds arr : List α) (i : Nat), arr.length = i + ds.length →
      writeSeq arr i ds = arr.take i ++ ds
  | [], arr, i, h => by
    show arr = arr.take i ++ []
    rw [List.append_nil, List.take_of_length_le (by simp at h; omega)]
  | d :: ds, arr, i, h => by
    have h2 : arr.length = i + (ds.length + 1) := by simpa using h
    have hi : i < arr.length := by omega
    show writeSeq (arr.set i d) (i + 1) ds = arr.take i ++ d :: ds
    rw [writeSeq_fills ds (arr.set i d) (i + 1)
      (by rw [List.length_set]; omega)]
    rw [set_take_succ arr i d hi]
    simp

/-- A field-loop iteration for a (field, cluster) pair other than the one
being written leaves that pair's array and cursor untouched. -/
theorem stepName_preserves {α μ : Type} (cfg : PassCfg α μ) (s : Nat)
    (n : String) (st : PassState α μ) (nm : String) (cc : Nat)
    (h : ¬ (n = nm ∧ cfg.spike_clusters.getD s 0 = cc)) :
    (stepName cfg s n st).arrays nm cc = st.arrays nm cc ∧
    (stepName cfg s n st).cursors nm cc = st.cursors nm cc := by
  unfold stepName
  set cv := cfg.spike_clusters.getD s 0 with hcv
  by_cases hab : st.aborted = true
  · rw [if_pos hab]
    exact ⟨rfl, rfl⟩
  · rw [if_neg hab]
    by_cases hts : cfg.toStore cv n = true
    · rw [if_pos hts]
      by_cases hok : cfg.dataOk n s = true
      · rw [if_pos hok]
        by_cases hmem : (n, cv) ∈ st.openFiles
        · rw [if_pos hmem]
          exact ⟨by dsimp only; rw [if_neg (fun hand => h ⟨hand.1.symm, hand.2.symm⟩)],
            by dsimp only; rw [if_neg (fun hand => h ⟨hand.1.symm, hand.2.symm⟩)]⟩
        · rw [if_neg hmem]
          exact ⟨by dsimp only; rw [if_neg (fun hand => h ⟨hand.1.symm, hand.2.symm⟩)],
            by dsimp only; rw [if_neg (fun hand => h ⟨hand.1.symm, hand.2.symm⟩)]⟩
      · rw [if_neg hok]
        exact ⟨rfl, rfl⟩
    · rw [if_neg hts]
      exact ⟨rfl, rfl⟩

/-- A field-loop iteration that stores: the data slice lands at the
cursor, which advances by one. -/
theorem stepName_writes {α μ : Type} (cfg : PassCfg α μ) (s : Nat)
    (name : String) (st : PassState α μ) (c : Nat)
    (hab : st.aborted = false)
    (hc : cfg.spike_clusters.getD s 0 = c)
    (hts : cfg.toStore c name = true)
    (hok : cfg.dataOk name s = true) :
    (stepName cfg s name st).arrays name c =
      (st.arrays name c).set (st.cursors name c) (cfg.dataV name s) ∧
    (stepName cfg s name st).cursors name c = st.cursors name c + 1 ∧
    (stepName cfg s name st).aborted = false := by
  unfold stepName
  rw [hc]
  rw [if_neg (by rw [hab]; exact Bool.false_ne_true)]
  rw [if_pos hts, if_pos hok]
  by_cases hmem : (name, c) ∈ st.openFiles
  · rw [if_pos hmem]
    exact ⟨by dsimp only; rw [if_pos ⟨rfl, rfl⟩], by dsimp only; rw [if_pos ⟨rfl, rfl⟩], hab⟩
  · rw [if_neg hmem]
    exact ⟨by dsimp only; rw [if_pos ⟨rfl, rfl⟩], by dsimp only; rw [if_pos ⟨rfl, rfl⟩], hab⟩

/-- A field-loop iteration never aborts when its read succeeds. -/
theorem stepName_no_abort {α μ : Type} (cfg : PassCfg α μ) (s : Nat)
    (n : String) (st : PassState α μ) (hab : st.aborted = false)
    (hok : cfg.dataOk n s = true) :
    (stepName cfg s n st).aborted = false := by
  unfold stepName
  set cv := cfg.spike_clusters.getD s 0 with hcv
  rw [if_neg (by rw [hab]; exact Bool.false_ne_true)]
  by_cases hts : cfg.toStore cv n = true
  · rw [if_pos hts, if_pos hok]
    by_cases hmem : (n, cv) ∈ st.openFiles
    · rw [if_pos hmem]
      exact hab
    · rw [if_neg hmem]
      exact hab
  · rw [if_neg hts]
    exact hab

/-- Effect of one spike-loop iteration on one marked (field, cluster)
pair, when no read fails: the data slice is appended through the cursor
exactly when the spike belongs to the cluster. -/
theorem stepSpike_effect {α μ : Type} (cfg : PassCfg α μ) (it s : Nat)
    (st : PassState α μ) (hab : st.aborted = false)
    (hok : ∀ nn ss, cfg.dataOk nn ss = true)
    (nm : String) (cc : Nat) (hnm : nm = "masks" ∨ nm = "features")
    (hts : cfg.toStore cc nm = true) :
    ((stepSpike cfg it s st).arrays nm cc =
      if cfg.spike_clusters.getD s 0 = cc then
        (st.arrays nm cc).set (st.cursors nm cc) (cfg.dataV nm s)
      else st.arrays nm cc) ∧
    ((stepSpike cfg it s st).cursors nm cc =
      if cfg.spike_clusters.getD s 0 = cc then st.cursors nm cc + 1
      else st.cursors nm cc) ∧
    (stepSpike cfg it s st).aborted = false := by
  have hmaskab : (stepName cfg s "masks" st).aborted = false :=
    stepName_no_abort cfg s "masks" st hab (hok _ _)
  have hfeatab : (stepName cfg s "features"
      (stepName cfg s "masks" st)).aborted = false :=
    stepName_no_abort _ _ _ _ hmaskab (hok _ _)
  have hT : ((stepName cfg s "features" (stepName cfg s "masks" st)).arrays
        nm cc =
      if cfg.spike_clusters.getD s 0 = cc then
        (st.arrays nm cc).set (st.cursors nm cc) (cfg.dataV nm s)
      else st.arrays nm cc) ∧
      ((stepName cfg s "features" (stepName cfg s "masks" st)).cursors
        nm cc =
      if cfg.spike_clusters.getD s 0 = cc then st.cursors nm cc + 1
      else st.cursors nm cc) := by
    rcases hnm with rfl | rfl
    · by_cases hcc : cfg.spike_clusters.getD s 0 = cc
      · have hw := stepName_writes cfg s "masks" st cc hab hcc hts (hok _ _)
        have hp := stepName_preserves cfg s "features"
          (stepName cfg s "masks" st) "masks" cc
          (fun hand => by exact absurd hand.1 (by decide))
        rw [if_pos hcc, if_pos hcc, hp.1, hp.2, hw.1, hw.2.1]
        exact ⟨rfl, rfl⟩
      · have hp1 := stepName_preserves cfg s "masks" st "masks" cc
          (fun hand => hcc hand.2)
        have hp2 := stepName_preserves cfg s "features"
          (stepName cfg s "masks" st) "masks" cc
          (fun hand => by exact absurd hand.1 (by decide))
        rw [if_neg hcc, if_neg hcc, hp2.1, hp2.2, hp1.1, hp1.2]
        exact ⟨rfl, rfl⟩
    · have hp1 := stepName_preserves cfg s "masks" st "features" cc
        (fun hand => by exact absurd hand.1 (by decide))
      by_cases hcc : cfg.spike_clusters.getD s 0 = cc
      · have hw := stepName_writes cfg s "features"
          (stepName cfg s "masks" st) cc hmaskab hcc hts (hok _ _)
        rw [if_pos hcc, if_pos hcc, hw.1, hw.2.1, hp1.1, hp1.2]
        exact ⟨rfl, rfl⟩
      · have hp2 := stepName_preserves cfg s "features"
          (stepName cfg s "masks" st) "features" cc
          (fun hand => hcc hand.2)
        rw [if_neg hcc, if_neg hcc, hp2.1, hp2.2, hp1.1, hp1.2]
        exact ⟨rfl, rfl⟩
  unfold stepSpike
  rw [if_neg (by rw [hab]; exact Bool.false_ne_true)]
  by_cases hpr : (!(stepName cfg s "features"
      (stepName cfg s "masks" st)).aborted && cfg.usePr
      && it % 100 == 0) = true
  · rw [if_pos hpr]
    exact ⟨hT.1, hT.2, hfeatab⟩
  · rw [if_neg hpr]
    exact ⟨hT.1, hT.2, hfeatab⟩

/-- The spike loop writes, for every marked (field, cluster) pair, the
data of exactly the spikes of that cluster, in iteration order, through
the cursor. -/
theorem foldSpikes_writes {α μ : Type} (cfg : PassCfg α μ)
    (hok : ∀ nn ss, cfg.dataOk nn ss = true)
    (nm : String) (hnm : nm = "masks" ∨ nm = "features")
    (cc : Nat) (hts : cfg.toStore cc nm = true) :
    ∀ (ps : List (Nat × Nat)) (st : PassState α μ), st.aborted = false →
      ((ps.foldl (fun st p => stepSpike cfg p.1 p.2 st) st).arrays nm cc =
        writeSeq (st.arrays nm cc) (st.cursors nm cc)
          (((ps.map Prod.snd).filter
            (fun s => cfg.spike_clusters.getD s 0 == cc)).map
            (fun s => cfg.dataV nm s)) ∧
       (ps.foldl (fun st p => stepSpike cfg p.1 p.2 st) st).cursors nm cc =
        st.cursors nm cc + ((ps.map Prod.snd).filter
            (fun s => cfg.spike_clusters.getD s 0 == cc)).length ∧
       (ps.foldl (fun st p => stepSpike cfg p.1 p.2 st) st).aborted = false)
  | [], st, hab => by
    simp only [List.foldl_nil, List.map_nil, List.filter_nil]
    exact ⟨rfl, by simp, hab⟩
  | p :: ps, st, hab => by
    have hstep := stepSpike_effect cfg p.1 p.2 st hab hok nm cc hnm hts
    have hrec := foldSpikes_writes cfg hok nm hnm cc hts ps
      (stepSpike cfg p.1 p.2 st) hstep.2.2
    simp only [List.foldl_cons, List.map_cons]
    by_cases hcc : cfg.spike_clusters.getD p.2 0 = cc
    · rw [List.filter_cons_of_pos (by simp only [beq_iff_eq]; exact hcc)]
      simp only [List.map_cons]
      refine ⟨?_, ?_, hrec.2.2⟩
      · rw [hrec.1, hstep.1, hstep.2.1, if_pos hcc, if_pos hcc]
        rfl
      · rw [hrec.2.1, hstep.2.1, if_pos hcc]
        simp only [List.length_cons]
        omega
    · rw [List.filter_cons_of_neg (by simp only [beq_iff_eq]; exact hcc)]
      refine ⟨?_, ?_, hrec.2.2⟩
      · rw [hrec.1, hstep.1, if_neg hcc, hstep.2.1, if_neg hcc]
      · rw [hrec.2.1, hstep.2.1, if_neg hcc]

/-- The spike loop never aborts when every read succeeds. -/
theorem foldSpikes_no_abort {α μ : Type} (cfg : PassCfg α μ)
    (hok : ∀ nn ss, cfg.dataOk nn ss = true) :
    ∀ (ps : List (Nat × Nat)) (st : PassState α μ), st.aborted = false →
      (ps.foldl (fun st p => stepSpike cfg p.1 p.2 st) st).aborted = false
  | [], _, hab => hab
  | p :: ps, st, hab => by
    have hm := stepName_no_abort cfg p.2 "masks" st hab (hok _ _)
    have hf := stepName_no_abort cfg p.2 "features"
      (stepName cfg p.2 "masks" st) hm (hok _ _)
    have h1 : (stepSpike cfg p.1 p.2 st).aborted = false := by
      unfold stepSpike
      rw [if_neg (by rw [hab]; exact Bool.false_ne_true)]
      by_cases hpr : (!(stepName cfg p.2 "features"
          (stepName cfg p.2 "masks" st)).aborted && cfg.usePr
          && p.1 % 100 == 0) = true
      · rw [if_pos hpr]
        exact hf
      · rw [if_neg hpr]
        exact hf
    simp only [List.foldl_cons]
    exact foldSpikes_no_abort cfg hok ps _ h1

/-- One aggregation iteration touches only the memory store and the
progress log. -/
theorem stepExtra_keeps {α μ : Type} (cfg : PassCfg α μ) (c : Nat)
    (st : PassState α μ) :
    (stepExtra cfg c st).arrays = st.arrays ∧
    (stepExtra cfg c st).cursors = st.cursors ∧
    (stepExtra cfg c st).aborted = st.aborted ∧
    (stepExtra cfg c st).openFiles = st.openFiles := by
  unfold stepExtra
  by_cases hab : st.aborted = true
  · rw [if_pos hab]
    exact ⟨rfl, rfl, rfl, rfl⟩
  · rw [if_neg hab]
    by_cases hpr : cfg.usePr = true
    · rw [if_pos hpr]
      exact ⟨rfl, rfl, rfl, rfl⟩
    · rw [if_neg hpr]
      exact ⟨rfl, rfl, rfl, rfl⟩

/-- The aggregation loop touches only the memory store and the progress
log. -/
theorem foldExtra_keeps {α μ : Type} (cfg : PassCfg α μ) :
    ∀ (cs : List Nat) (st : PassState α μ),
      ((cs.foldl (fun st c => stepExtra cfg c st) st).arrays = st.arrays ∧
       (cs.foldl (fun st c => stepExtra cfg c st) st).cursors = st.cursors ∧
       (cs.foldl (fun st c => stepExtra cfg c st) st).aborted = st.aborted ∧
       (cs.foldl (fun st c => stepExtra cfg c st) st).openFiles =
         st.openFiles)
  | [], st => ⟨rfl, rfl, rfl, rfl⟩
  | c :: cs, st => by
    simp only [List.foldl_cons]
    have hrec := foldExtra_keeps cfg cs (stepExtra cfg c st)
    have hstep := stepExtra_keeps cfg c st
    exact ⟨hrec.1.trans hstep.1, hrec.2.1.trans hstep.2.1,
      hrec.2.2.1.trans hstep.2.2.1, hrec.2.2.2.trans hstep.2.2.2⟩

/-- Closing the files does not touch the arrays or cursors. -/
theorem closeFiles_keeps {α μ : Type} (st : PassState α μ) :
    (closeFiles st).arrays = st.arrays ∧
    (closeFiles st).cursors = st.cursors := by
  unfold closeFiles
  by_cases hab : st.aborted = true
  · rw [if_pos hab]
    exact ⟨rfl, rfl⟩
  · rw [if_neg hab]
    exact ⟨rfl, rfl⟩

/-- C4: after store_all_clusters with no read failure, for every cluster
key marked for (re)population on a field, that cluster's persistent field
array holds exactly the data slices of its spikes in ascending spike id
order: row i is the data of the (i+1)-th smallest spike id of the
cluster. -/
theorem store_all_clusters_spec {α μ : Type} (cfg : PassCfg α μ)
    (hok : ∀ nn ss, cfg.dataOk nn ss = true)
    (nm : String) (hnm : nm = "masks" ∨ nm = "features")
    (cc : Nat) (hkey : cc ∈ cfg.clusterKeys)
    (hts : cfg.toStore cc nm = true)
    (hsize : cfg.sizes cc = ((List.range cfg.spike_clusters.length).filter
      (fun i => cfg.spike_clusters.getD i 0 == cc)).length) :
    (store_all_clusters cfg).arrays nm cc =
      ((List.range cfg.spike_clusters.length).filter
        (fun i => cfg.spike_clusters.getD i 0 == cc)).map
        (fun s => cfg.dataV nm s) := by
  have hcmem : cc ∈ storeClustersList cfg := by
    unfold storeClustersList
    rw [List.mem_filter]
    refine ⟨(List.mem_insertionSort _).mpr hkey, ?_⟩
    rcases hnm with rfl | rfl
    · rw [hts]
      rfl
    · rw [hts]
      simp
  have hspikes_filter : ((_spikes_in_clusters cfg.spike_clusters
      (storeClustersList cfg)).filter
      (fun s => cfg.spike_clusters.getD s 0 == cc)) =
      (List.range cfg.spike_clusters.length).filter
        (fun i => cfg.spike_clusters.getD i 0 == cc) := by
    unfold _spikes_in_clusters
    by_cases hemp : cfg.spike_clusters.length = 0 ∨
        (storeClustersList cfg).length = 0
    · rw [if_pos hemp]
      rcases hemp with h0 | h0
      · rw [h0]
        simp
      · exact absurd hcmem (by rw [List.length_eq_zero.mp h0]; simp)
    · rw [if_neg hemp]
      rw [List.filter_filter]
      refine List.filter_congr (fun i _ => ?_)
      by_cases hicc : cfg.spike_clusters.getD i 0 = cc
      · have hbeq : (cfg.spike_clusters.getD i 0 == cc) = true :=
          beq_iff_eq.mpr hicc
        rw [hbeq, Bool.true_and, hicc]
        exact decide_eq_true hcmem
      · have hbeq : (cfg.spike_clusters.getD i 0 == cc) = false :=
          beq_eq_false_iff_ne.mpr hicc
        rw [hbeq, Bool.false_and]

  have hmain : ∀ st : PassState α μ, st.arrays = (initState cfg).arrays →
      st.cursors = (initState cfg).cursors → st.aborted = false →
      ((((List.range (_spikes_in_clusters cfg.spike_clusters
          (storeClustersList cfg)).length).zip
          (_spikes_in_clusters cfg.spike_clusters
            (storeClustersList cfg))).foldl
          (fun st p => stepSpike cfg p.1 p.2 st) st).arrays nm cc =
        ((List.range cfg.spike_clusters.length).filter
          (fun i => cfg.spike_clusters.getD i 0 == cc)).map
          (fun s => cfg.dataV nm s)) := by
    intro st ha hc hab
    have hfold := foldSpikes_writes cfg hok nm hnm cc hts
      ((List.range (_spikes_in_clusters cfg.spike_clusters
        (storeClustersList cfg)).length).zip
        (_spikes_in_clusters cfg.spike_clusters (storeClustersList cfg)))
      st hab
    rw [hfold.1]
    have hmap : ((((List.range (_spikes_in_clusters cfg.spike_clusters
        (storeClustersList cfg)).length).zip
        (_spikes_in_clusters cfg.spike_clusters
          (storeClustersList cfg)))).map Prod.snd) =
        _spikes_in_clusters cfg.spike_clusters (storeClustersList cfg) :=
      List.map_snd_zip _ _ (by simp)
    rw [hmap, hspikes_filter, ha, hc]
    have hinit : (initState cfg).arrays nm cc =
        List.replicate (cfg.sizes cc) cfg.zeroRow := by
      unfold initState
      dsimp only
      rw [if_pos hts]
    have hinitc : (initState cfg).cursors nm cc = 0 := rfl
    rw [hinit, hinitc]
    rw [writeSeq_fills _ _ _ (by
      rw [List.length_replicate, List.length_map, hsize]
      omega)]
    rw [List.take_zero, List.nil_append]
  unfold store_all_clusters
  rw [(closeFiles_keeps _).1, (foldExtra_keeps cfg _ _).1]
  by_cases hpr : cfg.usePr = true
  · rw [if_pos hpr]
    exact hmain _ rfl rfl rfl
  · rw [if_neg hpr]
    exact hmain _ rfl rfl rfl

/-- A concrete pass configuration: three spikes in clusters 5, 3, 5, both
fields marked for storage, all reads succeeding. -/
def cfgSample : PassCfg Nat Nat :=
  { spike_clusters := [5, 3, 5]
    clusterKeys := [3, 5]
    toStore := fun _ _ => true
    dataV := fun name s => if name == "masks" then 10 + s else 100 + s
    dataOk := fun _ _ => true
    sizes := fun c => if c == 5 then 2 else 1
    zeroRow := 0
    preexisting := fun _ _ => []
    extraF := fun f m => f.length + m.length
    usePr := false }

/-- Witness for store_all_clusters_spec: cluster 5 owns spikes 0 and 2, so
its masks array ends up as the data of spikes 0 and 2 in that order. -/
theorem store_all_clusters_spec_witness :
    (∀ nn ss, cfgSample.dataOk nn ss = true) ∧
    5 ∈ cfgSample.clusterKeys ∧
    cfgSample.toStore 5 "masks" = true ∧
    cfgSample.sizes 5 = ((List.range cfgSample.spike_clusters.length).filter
      (fun i => cfgSample.spike_clusters.getD i 0 == 5)).length ∧
    (store_all_clusters cfgSample).arrays "masks" 5 =
      ((List.range cfgSample.spike_clusters.length).filter
        (fun i => cfgSample.spike_clusters.getD i 0 == 5)).map
        (fun s => cfgSample.dataV "masks" s) ∧
    (store_all_clusters cfgSample).arrays "masks" 5 = [10, 12] :=
  ⟨fun _ _ => rfl, by decide, rfl, by decide,
    store_all_clusters_spec cfgSample (fun _ _ => rfl) "masks" (Or.inl rfl) 5
      (by decide) rfl (by decide),
    by decide⟩

/-- A pass configuration whose masks read fails on the second spike. -/
def cfgLeak : PassCfg Nat Nat :=
  { spike_clusters := [5, 5]
    clusterKeys := [5]
    toStore := fun _ _ => true
    dataV := fun _ s => s
    dataOk := fun name s => !(name == "masks" && s == 1)
    sizes := fun _ => 2
    zeroRow := 0
    preexisting := fun _ _ => []
    extraF := fun _ _ => 0
    usePr := false }

/-- C8 counterexample: when a read raises mid-pass, the two handles opened
during the first iteration are never closed — the bulk close loop at the
end of store_all_clusters is skipped by the propagating exception. -/
theorem store_all_clusters_leak_counterexample :
    (store_all_clusters cfgLeak).aborted = true ∧
    (store_all_clusters cfgLeak).openFiles =
      [("masks", 5), ("features", 5)] ∧
    (store_all_clusters cfgLeak).openFiles ≠ [] := by
  refine ⟨?_, ?_, ?_⟩ <;> decide

/-- C8 amended: every lazily opened handle is closed before the call
returns on the normal path — when no read fails, the pass completes and
the bulk close empties the handle table; on an abort the close loop is
skipped and the handles leak (see the counterexample). -/
theorem store_all_clusters_closes_on_success {α μ : Type}
    (cfg : PassCfg α μ) (hok : ∀ nn ss, cfg.dataOk nn ss = true) :
    (store_all_clusters cfg).openFiles = [] ∧
    (store_all_clusters cfg).aborted = false := by
  have key : ∀ st : PassState α μ, st.aborted = false →
      (closeFiles ((List.insertionSort (fun x y => x ≤ y)
        cfg.clusterKeys).foldl (fun st c => stepExtra cfg c st)
        ((((List.range (_spikes_in_clusters cfg.spike_clusters
          (storeClustersList cfg)).length).zip
          (_spikes_in_clusters cfg.spike_clusters
            (storeClustersList cfg)))).foldl
          (fun st p => stepSpike cfg p.1 p.2 st) st))).openFiles = [] ∧
      (closeFiles ((List.insertionSort (fun x y => x ≤ y)
        cfg.clusterKeys).foldl (fun st c => stepExtra cfg c st)
        ((((List.range (_spikes_in_clusters cfg.spike_clusters
          (storeClustersList cfg)).length).zip
          (_spikes_in_clusters cfg.spike_clusters
            (storeClustersList cfg)))).foldl
          (fun st p => stepSpike cfg p.1 p.2 st) st))).aborted = false := by
    intro st hab
    have h2 := foldSpikes_no_abort cfg hok
      ((((List.range (_spikes_in_clusters cfg.spike_clusters
        (storeClustersList cfg)).length).zip
        (_spikes_in_clusters cfg.spike_clusters (storeClustersList cfg))))
      ) st hab
    have h4 : ((List.insertionSort (fun x y => x ≤ y)
        cfg.clusterKeys).foldl (fun st c => stepExtra cfg c st)
        ((((List.range (_spikes_in_clusters cfg.spike_clusters
          (storeClustersList cfg)).length).zip
          (_spikes_in_clusters cfg.spike_clusters
            (storeClustersList cfg)))).foldl
          (fun st p => stepSpike cfg p.1 p.2 st) st)).aborted = false :=
      ((foldExtra_keeps cfg _ _).2.2.1).trans h2
    constructor
    · unfold closeFiles
      rw [if_neg (by rw [h4]; exact Bool.false_ne_true)]
    · unfold closeFiles
      rw [if_neg (by rw [h4]; exact Bool.false_ne_true)]
      exact h4
  unfold store_all_clusters
  dsimp only
  by_cases hpr : cfg.usePr = true
  · rw [if_pos hpr]
    exact key _ rfl
  · rw [if_neg hpr]
    exact key _ rfl

/-- Witness for store_all_clusters_closes_on_success at the sample
configuration. -/
theorem store_all_clusters_closes_witness :
    (∀ nn ss, cfgSample.dataOk nn ss = true) ∧
    (store_all_clusters cfgSample).openFiles = [] ∧
    (store_all_clusters cfgSample).aborted = false :=
  ⟨fun _ _ => rfl,
    (store_all_clusters_closes_on_success cfgSample (fun _ _ => rfl)).1,
    (store_all_clusters_closes_on_success cfgSample (fun _ _ => rfl)).2⟩

/-- Discarding the progress log of a pass state. -/
def eraseProgress {α μ : Type} (st : PassState α μ) : PassState α μ :=
  { st with progress := [] }

/-- The field loop never reads the progress log and copies it through. -/
theorem stepName_erase {α μ : Type} (cfg : PassCfg α μ) (s : Nat)
    (n : String) (st : PassState α μ) :
    stepName cfg s n (eraseProgress st) =
      eraseProgress (stepName cfg s n st) := by
  unfold stepName eraseProgress
  dsimp only
  by_cases hab : st.aborted = true
  · rw [if_pos hab, if_pos hab]
  · rw [if_neg hab, if_neg hab]
    by_cases hts : cfg.toStore (cfg.spike_clusters.getD s 0) n = true
    · rw [if_pos hts, if_pos hts]
      by_cases hok2 : cfg.dataOk n s = true
      · rw [if_pos hok2, if_pos hok2]
        by_cases hmem : (n, cfg.spike_clusters.getD s 0) ∈ st.openFiles
        · rw [if_pos hmem, if_pos hmem]
        · rw [if_neg hmem, if_neg hmem]
      · rw [if_neg hok2, if_neg hok2]
    · rw [if_neg hts, if_neg hts]

/-- A spike-loop iteration without a progress reporter computes the
progress-erased state of the iteration with one. -/
theorem stepSpike_usePr_erase {α μ : Type} (cfg : PassCfg α μ) (b : Bool)
    (it s : Nat) (st : PassState α μ) :
    stepSpike { cfg with usePr := false } it s (eraseProgress st) =
      eraseProgress (stepSpike { cfg with usePr := b } it s st) := by
  have hsn : ∀ (s2 : Nat) (n : String) (st3 : PassState α μ),
      stepName { cfg with usePr := false } s2 n st3 =
      stepName { cfg with usePr := b } s2 n st3 := fun _ _ _ => rfl
  have habE : (eraseProgress st).aborted = st.aborted := rfl
  unfold stepSpike
  dsimp only
  rw [habE]
  by_cases hab : st.aborted = true
  · rw [if_pos hab, if_pos hab]
  · rw [if_neg hab, if_neg hab]
    rw [hsn, hsn, stepName_erase, stepName_erase]
    rw [Bool.and_false, Bool.false_and]
    rw [if_neg (by exact Bool.false_ne_true)]
    by_cases hcond : (!(stepName { cfg with usePr := b } s "features"
        (stepName { cfg with usePr := b } s "masks" st)).aborted && b
        && (it % 100 == 0)) = true
    · rw [if_pos hcond]
      rfl
    · rw [if_neg hcond]

/-- An aggregation iteration without a progress reporter computes the
progress-erased state of the iteration with one. -/
theorem stepExtra_usePr_erase {α μ : Type} (cfg : PassCfg α μ) (b : Bool)
    (c : Nat) (st : PassState α μ) :
    stepExtra { cfg with usePr := false } c (eraseProgress st) =
      eraseProgress (stepExtra { cfg with usePr := b } c st) := by
  unfold stepExtra eraseProgress
  dsimp only
  by_cases hab : st.aborted = true
  · rw [if_pos hab, if_pos hab]
  · rw [if_neg hab, if_neg hab]
    rw [if_neg (by exact Bool.false_ne_true)]
    by_cases hb : b = true
    · rw [if_pos hb]
    · rw [if_neg hb]

/-- The spike loop without a progress reporter computes the
progress-erased state of the loop with one. -/
theorem foldSpikes_usePr_erase {α μ : Type} (cfg : PassCfg α μ) (b : Bool) :
    ∀ (ps : List (Nat × Nat)) (st : PassState α μ),
      ps.foldl (fun st p => stepSpike { cfg with usePr := false } p.1 p.2 st)
        (eraseProgress st) =
      eraseProgress (ps.foldl
        (fun st p => stepSpike { cfg with usePr := b } p.1 p.2 st) st)
  | [], _ => rfl
  | p :: ps, st => by
    simp only [List.foldl_cons]
    rw [stepSpike_usePr_erase cfg b p.1 p.2 st]
    exact foldSpikes_usePr_erase cfg b ps _

/-- The aggregation loop without a progress reporter computes the
progress-erased state of the loop with one. -/
theorem foldExtra_usePr_erase {α μ : Type} (cfg : PassCfg α μ) (b : Bool) :
    ∀ (cs : List Nat) (st : PassState α μ),
      cs.foldl (fun st c => stepExtra { cfg with usePr := false } c st)
        (eraseProgress st) =
      eraseProgress (cs.foldl
        (fun st c => stepExtra { cfg with usePr := b } c st) st)
  | [], _ => rfl
  | c :: cs, st => by
    simp only [List.foldl_cons]
    rw [stepExtra_usePr_erase cfg b c st]
    exact foldExtra_usePr_erase cfg b cs _

/-- Closing the files commutes with discarding the progress log. -/
theorem closeFiles_erase {α μ : Type} (st : PassState α μ) :
    closeFiles (eraseProgress st) = eraseProgress (closeFiles st) := by
  unfold closeFiles eraseProgress
  dsimp only
  by_cases hab : st.aborted = true
  · rw [if_pos hab, if_pos hab]
  · rw [if_neg hab, if_neg hab]

/-- C9: running store_all_clusters without a progress reporter produces
exactly the progress-erased state of the run with one — the disk-store
arrays, the cursors, the memory store, the open-handle table and the
abort flag are all identical; the optional progress callback never
changes the stored results. -/
theorem store_all_clusters_progress_independent {α μ : Type}
    (cfg : PassCfg α μ) :
    store_all_clusters { cfg with usePr := false } =
      eraseProgress (store_all_clusters { cfg with usePr := true }) ∧
    (store_all_clusters { cfg with usePr := true }).arrays =
      (store_all_clusters { cfg with usePr := false }).arrays ∧
    (store_all_clusters { cfg with usePr := true }).memory =
      (store_all_clusters { cfg with usePr := false }).memory ∧
    (store_all_clusters { cfg with usePr := true }).cursors =
      (store_all_clusters { cfg with usePr := false }).cursors ∧
    (store_all_clusters { cfg with usePr := true }).openFiles =
      (store_all_clusters { cfg with usePr := false }).openFiles ∧
    (store_all_clusters { cfg with usePr := true }).aborted =
      (store_all_clusters { cfg with usePr := false }).aborted := by
  have hmainEq : store_all_clusters { cfg with usePr := false } =
      eraseProgress (store_all_clusters { cfg with usePr := true }) := by
    unfold store_all_clusters
    dsimp only
    rw [if_neg (by exact Bool.false_ne_true), if_pos rfl]
    rw [show initState { cfg with usePr := false } =
      eraseProgress { initState { cfg with usePr := true } with
        progress := [("set_max_features_masks",
          (_spikes_in_clusters cfg.spike_clusters
            (storeClustersList { cfg with usePr := true })).length),
          ("set_max_masks_extra", cfg.clusterKeys.length)] } from rfl]
    rw [foldSpikes_usePr_erase cfg true, foldExtra_usePr_erase cfg true,
      closeFiles_erase]
    rfl
  refine ⟨hmainEq, ?_, ?_, ?_, ?_, ?_⟩ <;> rw [hmainEq] <;> rfl

end PhySpec


